import Mathlib

/-!
Verification development for the Pathfinder supply-chain route optimizer.

The Python source (`main.py`) is shallowly embedded here:
* `create_id_to_index_mapping`, the arc-construction loop, the path
  reconstruction `while` loop of `find_optimal_path_ortools`, and
  `simulate_disruption` are translated directly from the source.
* The OR-Tools `SimpleMinCostFlow` solver is an external library; it is
  modelled from the spec as a brute-force minimum over all 0/1 flow
  assignments satisfying flow conservation.

Numeric values from the edge table (`cost_eur`) are modelled as rationals;
Python's `int()` conversion is modelled as truncation toward zero.
-/

/-- A row of the edge table: `source`, `target`, `cost_eur`. -/
structure EdgeRow where
  source : String
  target : String
  cost_eur : ℚ
deriving DecidableEq, Repr

instance : Inhabited EdgeRow := ⟨⟨"", "", 0⟩⟩

/-- An arc of the flow network as added by
`smcf.add_arc_with_capacity_and_unit_cost(tail, head, 1, cost)`:
integer endpoints (dense node indices) and an integer cost.
Capacity is always 1 and is left implicit. -/
structure Arc where
  tail : ℕ
  head : ℕ
  cost : ℤ
deriving DecidableEq, Repr

instance : Inhabited Arc := ⟨⟨0, 0, 0⟩⟩

/-- Python `int(x)`: truncation of a numeric value toward zero. -/
def intTrunc (q : ℚ) : ℤ := if 0 ≤ q then ⌊q⌋ else ⌈q⌉

/-- Helper for `create_id_to_index_mapping`: scans the id list keeping the
index of the LAST occurrence (a Python dict comprehension lets later
duplicate keys overwrite earlier ones). -/
def idIndexAux : List String → String → ℕ → Option ℕ
  | [], _, _ => none
  | x :: xs, s, i =>
    match idIndexAux xs s (i + 1) with
    | some j => some j
    | none => if x = s then some i else none

/-- `create_id_to_index_mapping(node_ids)`: dict from node id string to its
dense integer index (last occurrence wins, as in a dict comprehension);
`none` models a `KeyError` / `dict.get` miss. -/
def create_id_to_index_mapping (node_ids : List String) (s : String) : Option ℕ :=
  idIndexAux node_ids s 0

/-- The arc-construction loop of `find_optimal_path_ortools`: one arc per
edge row, in input order, endpoints resolved through the id-to-index dict
and cost converted with `int(...)`. A lookup miss raises `KeyError`,
modelled as `none`. -/
def buildArcs (idx : String → Option ℕ) : List EdgeRow → Option (List Arc)
  | [] => some []
  | e :: es =>
    match idx e.source, idx e.target with
    | some u, some v => (buildArcs idx es).map (fun rest => ⟨u, v, intTrunc e.cost_eur⟩ :: rest)
    | _, _ => none

/-- Flow value (0/1 as a Bool) assigned to arc `i`. -/
def flowAt (f : List Bool) (i : ℕ) : Bool := f.getD i false

/-- Tail node index of arc `i` (0 if out of range). -/
def arcTail (arcs : List Arc) (i : ℕ) : ℕ := (arcs.getD i default).tail

/-- Head node index of arc `i` (0 if out of range). -/
def arcHead (arcs : List Arc) (i : ℕ) : ℕ := (arcs.getD i default).head

/-- Cost of arc `i` (0 if out of range). -/
def arcCost (arcs : List Arc) (i : ℕ) : ℤ := (arcs.getD i default).cost

/-- Number of flow-carrying arcs leaving node `v`. -/
def outFlow (arcs : List Arc) (f : List Bool) (v : ℕ) : ℕ :=
  ((Finset.range arcs.length).filter (fun i => flowAt f i = true ∧ arcTail arcs i = v)).card

/-- Number of flow-carrying arcs entering node `v`. -/
def inFlow (arcs : List Arc) (f : List Bool) (v : ℕ) : ℕ :=
  ((Finset.range arcs.length).filter (fun i => flowAt f i = true ∧ arcHead arcs i = v)).card

/-- Net supply of node `v` after `set_node_supply(s, 1); set_node_supply(t, -1)`.
The second call overwrites the first, so when `s = t` the node's supply
is `-1`. -/
def supplyAt (s t v : ℕ) : ℤ := if v = t then -1 else if v = s then 1 else 0

/-- Feasibility of a 0/1 flow assignment: one flow value per arc, and flow
conservation `out - in = supply` at every node index below `n`. -/
def Feasible (n s t : ℕ) (arcs : List Arc) (f : List Bool) : Prop :=
  f.length = arcs.length ∧
    ∀ v < n, (outFlow arcs f v : ℤ) - (inFlow arcs f v : ℤ) = supplyAt s t v

instance (n s t : ℕ) (arcs : List Arc) (f : List Bool) : Decidable (Feasible n s t arcs f) := by
  unfold Feasible
  infer_instance

/-- Total cost of a flow assignment: sum of the costs of flow-carrying arcs. -/
def flowCost (arcs : List Arc) (f : List Bool) : ℤ :=
  ((Finset.range arcs.length).filter (fun i => flowAt f i = true)).sum (fun i => arcCost arcs i)

/-- All 0/1 assignments of length `n`. -/
def allAssignments : ℕ → List (List Bool)
  | 0 => [[]]
  | n + 1 => (allAssignments n).map (List.cons false) ++ (allAssignments n).map (List.cons true)

/-- Binary encoding of an assignment (bit `i` of the number is arc `i`'s flow). -/
def encodeBits : List Bool → ℕ
  | [] => 0
  | b :: bs => (if b then 1 else 0) + 2 * encodeBits bs

/-- Strict comparison used to pick a canonical optimum: smaller total cost,
ties broken by smaller binary encoding. -/
def betterB (arcs : List Arc) (g f : List Bool) : Bool :=
  decide (flowCost arcs g < flowCost arcs f) ||
    (decide (flowCost arcs g = flowCost arcs f) && decide (encodeBits g < encodeBits f))

/-- First scan step of the argmin fold. -/
def pickMin (arcs : List Arc) (acc g : List Bool) : List Bool :=
  if betterB arcs g acc then g else acc

/-- Minimum-key element of a list of assignments (`none` iff the list is empty). -/
def argminFlow (arcs : List Arc) : List (List Bool) → Option (List Bool)
  | [] => none
  | f :: fs => some (fs.foldl (pickMin arcs) f)

/-- Modelled from the spec: the external OR-Tools `SimpleMinCostFlow` solver
(`smcf.solve()` and the per-arc `smcf.flow(i)`), which is not part of this
repository. Per the spec's solver contract it computes "a feasible
minimum-total-cost assignment of flow values (0 or 1) to edges satisfying
flow conservation at every node except source/sink"; the unit supply at the
source and unit demand at the sink are folded into `Feasible` via
`supplyAt`. Modelled as the brute-force minimum over all 0/1 assignments,
with a canonical deterministic tie-break (smallest binary encoding).
Returns `none` when no feasible assignment exists (solver status infeasible). -/
def solveFlow (n s t : ℕ) (arcs : List Arc) : Option (List Bool) :=
  argminFlow arcs ((allAssignments arcs.length).filter (fun f => decide (Feasible n s t arcs f)))

/-- Walk recognizer: `isWalk arcs a b w` holds when the arc-index list `w`
chains from node `a` to node `b` through existing arcs. -/
def isWalk (arcs : List Arc) : ℕ → ℕ → List ℕ → Bool
  | a, b, [] => a == b
  | a, b, j :: w =>
    match arcs[j]? with
    | some e => (e.tail == a) && isWalk arcs e.head b w
    | none => false

/-- A source-to-sink path in the graph, as a list of arc indices. -/
def IsWalk (arcs : List Arc) (a b : ℕ) (w : List ℕ) : Prop := isWalk arcs a b w = true

instance (arcs : List Arc) (a b : ℕ) (w : List ℕ) : Decidable (IsWalk arcs a b w) := by
  unfold IsWalk
  infer_instance

/-- Node sequence visited by a walk starting at `a`. -/
def nodeSeq (arcs : List Arc) (a : ℕ) (w : List ℕ) : List ℕ := a :: w.map (arcHead arcs)

/-- Total cost of the arcs of a walk (with multiplicity). -/
def costSum (arcs : List Arc) (w : List ℕ) : ℤ := (w.map (arcCost arcs)).sum

/-- The 0/1 assignment putting unit flow exactly on the arcs of `w`. -/
def indicatorFlow (len : ℕ) (w : List ℕ) : List Bool :=
  (List.range len).map (fun i => decide (i ∈ w))

/-- The inner `for i in range(smcf.num_arcs())` scan of the reconstruction
loop: first arc index (in input order) leaving `cur` with positive flow. -/
def findFlowArc (arcs : List Arc) (f : List Bool) (cur : ℕ) : Option ℕ :=
  (List.range arcs.length).find? (fun i => flowAt f i && (arcTail arcs i == cur))

/-- The reconstruction `while node_ids[current_node_idx] != end_node_id` loop.
`fuel` bounds the number of iterations observed; the Python loop has no such
bound, so `none` (fuel exhausted in every amount of fuel) models divergence.
When no flow-carrying arc leaves the current node the Python `for` loop falls
through without advancing and the `while` loop retries forever; this is the
`none => traceLoop …` branch, which keeps the state unchanged. -/
def traceLoop (node_ids : List String) (arcs : List Arc) (f : List Bool) (endId : String) :
    ℕ → ℕ → List String → Option (List String)
  | 0, _, _ => none
  | fuel + 1, cur, acc =>
    if node_ids.getD cur "" = endId then some acc
    else
      match findFlowArc arcs f cur with
      | some i => traceLoop node_ids arcs f endId fuel (arcHead arcs i)
          (acc ++ [node_ids.getD (arcHead arcs i) ""])
      | none => traceLoop node_ids arcs f endId fuel cur acc

/-- Observable outcome of `find_optimal_path_ortools`. -/
inductive SolveResult where
  /-- An uncaught Python `KeyError` from `id_to_index[...]` in the arc loop. -/
  | keyError : SolveResult
  /-- The `(None, None)` return: unknown start/end node, or solver status
  not `OPTIMAL`. -/
  | notFound : SolveResult
  /-- The `(path, total_cost)` return. -/
  | found : List String → ℤ → SolveResult
deriving DecidableEq, Repr

/-- `find_optimal_path_ortools(nodes_df, edges_df, start, end, weight_column)`.
The node table contributes only its `id` column (`node_ids`); the weight
column is the `cost_eur` field of the edge rows. The outer `Option` is the
reconstruction fuel: `none` means the unbounded `while` loop did not finish
within `fuel` iterations. -/
def find_optimal_path_ortools (node_ids : List String) (edges : List EdgeRow)
    (start_node_id end_node_id : String) (fuel : ℕ) : Option SolveResult :=
  match create_id_to_index_mapping node_ids start_node_id,
      create_id_to_index_mapping node_ids end_node_id with
  | some s, some t =>
    match buildArcs (create_id_to_index_mapping node_ids) edges with
    | none => some SolveResult.keyError
    | some arcs =>
      match solveFlow node_ids.length s t arcs with
      | none => some SolveResult.notFound
      | some f =>
        (traceLoop node_ids arcs f end_node_id fuel s [start_node_id]).map
          (fun path => SolveResult.found path (flowCost arcs f))
  | _, _ => some SolveResult.notFound

/-- Observable outcome of `simulate_disruption`: the (copied) edge table it
returns, plus which warnings it printed and which edge row it disrupted. -/
structure DisruptResult where
  edges : List EdgeRow
  emptyPathWarning : Bool
  fallbackWarning : Bool
  eventIndex : Option ℕ
deriving DecidableEq, Repr

/-- Consecutive (source, target) pairs of a route:
`list(zip(optimal_path[:-1], optimal_path[1:]))`. -/
def pathEdges (path : List String) : List (String × String) := path.zip path.tail

/-- Row indices of the edge table whose (source, target) pair lies on the path. -/
def onPathIndices (edges : List EdgeRow) (pe : List (String × String)) : List ℕ :=
  (List.range edges.length).filter
    (fun i => ((edges.getD i default).source, (edges.getD i default).target) ∈ pe)

/-- `disrupted_edges.loc[j, 'cost_eur'] = original_cost * disruption_factor`
applied to the copied table. -/
def applyDisruption (edges : List EdgeRow) (j : ℕ) (factor : ℚ) : List EdgeRow :=
  edges.set j { edges.getD j default with cost_eur := (edges.getD j default).cost_eur * factor }

/-- `simulate_disruption(edges_df, optimal_path, disruption_factor)`.
`random.choice` over a candidate index list is modelled by the injectable
draw `k`, selecting the `k % length`-th candidate; every possible random
choice is some `k`. The function operates on a copy of the edge table, so
it returns a new list and the input is untouched. The outer `Option` is
`none` only for the `random.choice` on an empty fallback candidate list
(a Python `IndexError`). -/
def simulate_disruption (edges : List EdgeRow) (optimal_path : List String)
    (factor : ℚ) (k : ℕ) : Option DisruptResult :=
  let pe := pathEdges optimal_path
  if pe = [] then some ⟨edges, true, false, none⟩
  else
    let onPath := onPathIndices edges pe
    if onPath = [] then
      if edges.length = 0 then none
      else
        let j := (List.range edges.length).getD (k % edges.length) 0
        some ⟨applyDisruption edges j factor, false, true, some j⟩
    else
      let j := onPath.getD (k % onPath.length) 0
      some ⟨applyDisruption edges j factor, false, false, some j⟩

/-- The edge table with every cost replaced by its truncated integer value. -/
def truncEdges (edges : List EdgeRow) : List EdgeRow :=
  edges.map (fun e => { e with cost_eur := (intTrunc e.cost_eur : ℚ) })

/-- Non-strict version of the solver's selection order: `f` is at least as
good as `g` (smaller cost, or equal cost and no larger encoding). -/
def keyLE (arcs : List Arc) (f g : List Bool) : Prop :=
  flowCost arcs f < flowCost arcs g ∨
    (flowCost arcs f = flowCost arcs g ∧ encodeBits f ≤ encodeBits g)

/-! ### Lemmas about the id-to-index mapping -/

theorem idIndexAux_bounds : ∀ (xs : List String) (s : String) (i j : ℕ),
    idIndexAux xs s i = some j → i ≤ j ∧ j < i + xs.length := by
  intro xs
  induction xs with
  | nil => intro s i j h; simp [idIndexAux] at h
  | cons x xs ih =>
    intro s i j h
    unfold idIndexAux at h
    rcases hrec : idIndexAux xs s (i + 1) with _ | j2
    · rw [hrec] at h
      simp at h
      rcases h with ⟨hx, hj⟩
      subst hj
      simp
    · rw [hrec] at h
      simp at h
      subst h
      have := ih s (i + 1) j2 hrec
      constructor
      · omega
      · simp only [List.length_cons]
        omega

theorem idIndexAux_getD : ∀ (xs : List String) (s : String) (i j : ℕ),
    idIndexAux xs s i = some j → xs.getD (j - i) "" = s := by
  intro xs
  induction xs with
  | nil => intro s i j h; simp [idIndexAux] at h
  | cons x xs ih =>
    intro s i j h
    unfold idIndexAux at h
    rcases hrec : idIndexAux xs s (i + 1) with _ | j2
    · rw [hrec] at h
      simp at h
      rcases h with ⟨hx, hj⟩
      subst hj
      simp [hx]
    · rw [hrec] at h
      simp at h
      subst h
      have hb := idIndexAux_bounds xs s (i + 1) j2 hrec
      have := ih s (i + 1) j2 hrec
      have hsub : j2 - i = (j2 - (i + 1)) + 1 := by omega
      rw [hsub]
      simpa using this

theorem idIndexAux_isSome_of_mem : ∀ (xs : List String) (s : String) (i : ℕ),
    s ∈ xs → ∃ j, idIndexAux xs s i = some j := by
  intro xs
  induction xs with
  | nil => intro s i h; simp at h
  | cons x xs ih =>
    intro s i h
    unfold idIndexAux
    rcases hrec : idIndexAux xs s (i + 1) with _ | j2
    · rcases List.mem_cons.mp h with h1 | h2
      · subst h1
        simp
      · rcases ih s (i + 1) h2 with ⟨j, hj⟩
        rw [hj] at hrec
        exact absurd hrec (by simp)
    · exact ⟨j2, rfl⟩

theorem idIndexAux_none_of_not_mem : ∀ (xs : List String) (s : String) (i : ℕ),
    s ∉ xs → idIndexAux xs s i = none := by
  intro xs
  induction xs with
  | nil => intro s i _; simp [idIndexAux]
  | cons x xs ih =>
    intro s i h
    unfold idIndexAux
    rw [ih s (i + 1) (fun hc => h (List.mem_cons_of_mem x hc))]
    simp only []
    have hx : ¬ x = s := fun hc => h (hc ▸ List.mem_cons_self x xs)
    simp [hx]

theorem create_id_lt (node_ids : List String) (s : String) (j : ℕ)
    (h : create_id_to_index_mapping node_ids s = some j) : j < node_ids.length := by
  have := idIndexAux_bounds node_ids s 0 j h
  omega

theorem create_id_getD (node_ids : List String) (s : String) (j : ℕ)
    (h : create_id_to_index_mapping node_ids s = some j) : node_ids.getD j "" = s := by
  have := idIndexAux_getD node_ids s 0 j h
  simpa using this

theorem create_id_none_iff (node_ids : List String) (s : String) :
    create_id_to_index_mapping node_ids s = none ↔ s ∉ node_ids := by
  constructor
  · intro h hmem
    rcases idIndexAux_isSome_of_mem node_ids s 0 hmem with ⟨j, hj⟩
    rw [create_id_to_index_mapping] at h
    rw [h] at hj
    exact absurd hj (by simp)
  · intro h
    exact idIndexAux_none_of_not_mem node_ids s 0 h

theorem create_id_isSome_of_mem (node_ids : List String) (s : String) (h : s ∈ node_ids) :
    ∃ j, create_id_to_index_mapping node_ids s = some j :=
  idIndexAux_isSome_of_mem node_ids s 0 h

/-! ### Lemmas about arc construction -/

theorem buildArcs_none_iff (idx : String → Option ℕ) : ∀ (edges : List EdgeRow),
    buildArcs idx edges = none ↔ ∃ e ∈ edges, idx e.source = none ∨ idx e.target = none := by
  intro edges
  induction edges with
  | nil => simp [buildArcs]
  | cons e es ih =>
    rcases hs : idx e.source with _ | u
    · constructor
      · intro _
        exact ⟨e, List.mem_cons_self e es, Or.inl hs⟩
      · intro _
        unfold buildArcs
        rw [hs]
    · rcases ht : idx e.target with _ | v
      · constructor
        · intro _
          exact ⟨e, List.mem_cons_self e es, Or.inr ht⟩
        · intro _
          unfold buildArcs
          rw [hs, ht]
      · unfold buildArcs
        rw [hs, ht]
        constructor
        · intro h
          have hnone : buildArcs idx es = none := by
            rcases hrec : buildArcs idx es with _ | rest
            · rfl
            · rw [hrec] at h
              simp at h
          rcases ih.mp hnone with ⟨e2, he2, hor⟩
          exact ⟨e2, List.mem_cons_of_mem e he2, hor⟩
        · intro hex
          rcases hex with ⟨e2, he2, hor⟩
          rcases List.mem_cons.mp he2 with h1 | h2
          · subst h1
            rcases hor with h | h
            · rw [hs] at h
              exact absurd h (by simp)
            · rw [ht] at h
              exact absurd h (by simp)
          · have hn := ih.mpr ⟨e2, h2, hor⟩
            simp [hn]

theorem buildArcs_length (idx : String → Option ℕ) : ∀ (edges : List EdgeRow) (arcs : List Arc),
    buildArcs idx edges = some arcs → arcs.length = edges.length := by
  intro edges
  induction edges with
  | nil => intro arcs h; simp [buildArcs] at h; simp [← h]
  | cons e es ih =>
    intro arcs h
    unfold buildArcs at h
    rcases hs : idx e.source with _ | u <;> rw [hs] at h
    · simp at h
    · rcases ht : idx e.target with _ | v <;> rw [ht] at h
      · simp at h
      · rcases hrec : buildArcs idx es with _ | rest <;> rw [hrec] at h
        · simp at h
        · simp at h
          rw [← h]
          simp [ih rest hrec]

theorem buildArcs_mem (idx : String → Option ℕ) : ∀ (edges : List EdgeRow) (arcs : List Arc),
    buildArcs idx edges = some arcs → ∀ a ∈ arcs,
      ∃ e ∈ edges, idx e.source = some a.tail ∧ idx e.target = some a.head ∧
        a.cost = intTrunc e.cost_eur := by
  intro edges
  induction edges with
  | nil =>
    intro arcs h a ha
    simp [buildArcs] at h
    subst h
    simp at ha
  | cons e es ih =>
    intro arcs h a ha
    unfold buildArcs at h
    rcases hs : idx e.source with _ | u <;> rw [hs] at h
    · simp at h
    · rcases ht : idx e.target with _ | v <;> rw [ht] at h
      · simp at h
      · rcases hrec : buildArcs idx es with _ | rest <;> rw [hrec] at h
        · simp at h
        · simp at h
          rw [← h] at ha
          rcases List.mem_cons.mp ha with h1 | h2
          · subst h1
            exact ⟨e, List.mem_cons_self e es, by simp [hs], by simp [ht], rfl⟩
          · rcases ih rest hrec a h2 with ⟨e2, he2, hp⟩
            exact ⟨e2, List.mem_cons_of_mem e he2, hp⟩

theorem buildArcs_endpoints_lt (node_ids : List String) (edges : List EdgeRow) (arcs : List Arc)
    (h : buildArcs (create_id_to_index_mapping node_ids) edges = some arcs) :
    ∀ a ∈ arcs, a.tail < node_ids.length ∧ a.head < node_ids.length := by
  intro a ha
  rcases buildArcs_mem _ edges arcs h a ha with ⟨e, _, hs, ht, _⟩
  exact ⟨create_id_lt _ _ _ hs, create_id_lt _ _ _ ht⟩

/-! ### Walk lemmas -/

theorem arc_getD_mem (arcs : List Arc) (j : ℕ) (hj : j < arcs.length) :
    arcs.getD j default ∈ arcs := by
  rw [List.getD_eq_getElem arcs default hj]
  exact List.getElem_mem hj

theorem isWalk_nil_iff (arcs : List Arc) (a b : ℕ) : IsWalk arcs a b [] ↔ a = b := by
  unfold IsWalk isWalk
  simp

theorem isWalk_cons_iff (arcs : List Arc) (a b j : ℕ) (w : List ℕ) :
    IsWalk arcs a b (j :: w) ↔
      j < arcs.length ∧ arcTail arcs j = a ∧ IsWalk arcs (arcHead arcs j) b w := by
  rcases hj : arcs[j]? with _ | e
  · have hlen : arcs.length ≤ j := List.getElem?_eq_none_iff.mp hj
    have hfalse : isWalk arcs a b (j :: w) = false := by
      unfold isWalk
      rw [hj]
    unfold IsWalk
    rw [hfalse]
    simp
    omega
  · have hlt : j < arcs.length := (List.getElem?_eq_some_iff.mp hj).1
    have hgd : arcs.getD j default = e := by
      rw [List.getD_eq_getElem arcs default hlt]
      exact (List.getElem?_eq_some_iff.mp hj).2
    have heq : isWalk arcs a b (j :: w) = ((e.tail == a) && isWalk arcs e.head b w) := by
      show (match arcs[j]? with
        | some e => (e.tail == a) && isWalk arcs e.head b w
        | none => false) = ((e.tail == a) && isWalk arcs e.head b w)
      rw [hj]
    have hT : arcTail arcs j = e.tail := by
      unfold arcTail
      rw [hgd]
    have hH : arcHead arcs j = e.head := by
      unfold arcHead
      rw [hgd]
    unfold IsWalk
    rw [heq, hT, hH]
    simp only [Bool.and_eq_true, beq_iff_eq]
    constructor
    · intro h
      exact ⟨hlt, h.1, h.2⟩
    · intro h
      exact ⟨h.2.1, h.2.2⟩

theorem walk_mem_lt (arcs : List Arc) : ∀ (w : List ℕ) (a b : ℕ),
    IsWalk arcs a b w → ∀ j ∈ w, j < arcs.length := by
  intro w
  induction w with
  | nil => intro a b _ j hj; simp at hj
  | cons i w ih =>
    intro a b hw j hj
    rw [isWalk_cons_iff] at hw
    rcases List.mem_cons.mp hj with h1 | h2
    · subst h1; exact hw.1
    · exact ih _ _ hw.2.2 j h2

theorem walk_append (arcs : List Arc) : ∀ (w1 w2 : List ℕ) (a b c : ℕ),
    IsWalk arcs a b w1 → IsWalk arcs b c w2 → IsWalk arcs a c (w1 ++ w2) := by
  intro w1
  induction w1 with
  | nil =>
    intro w2 a b c h1 h2
    rw [isWalk_nil_iff] at h1
    simpa [h1] using h2
  | cons j w ih =>
    intro w2 a b c h1 h2
    rw [isWalk_cons_iff] at h1
    rw [List.cons_append, isWalk_cons_iff]
    exact ⟨h1.1, h1.2.1, ih w2 _ _ _ h1.2.2 h2⟩

theorem costSum_nil (arcs : List Arc) : costSum arcs [] = 0 := rfl

theorem costSum_cons (arcs : List Arc) (j : ℕ) (w : List ℕ) :
    costSum arcs (j :: w) = arcCost arcs j + costSum arcs w := by
  simp [costSum]

theorem costSum_append (arcs : List Arc) (w1 w2 : List ℕ) :
    costSum arcs (w1 ++ w2) = costSum arcs w1 + costSum arcs w2 := by
  simp [costSum]

theorem costSum_nonneg (arcs : List Arc) (hnn : ∀ e ∈ arcs, 0 ≤ e.cost) :
    ∀ (w : List ℕ), (∀ j ∈ w, j < arcs.length) → 0 ≤ costSum arcs w := by
  intro w
  induction w with
  | nil => intro _; simp [costSum]
  | cons j w ih =>
    intro h
    rw [costSum_cons]
    have h1 : 0 ≤ arcCost arcs j :=
      hnn _ (arc_getD_mem arcs j (h j (List.mem_cons_self j w)))
    have h2 : 0 ≤ costSum arcs w := ih (fun i hi => h i (List.mem_cons_of_mem j hi))
    omega

theorem nodeSeq_getLast (arcs : List Arc) : ∀ (w : List ℕ) (a b : ℕ),
    IsWalk arcs a b w → (nodeSeq arcs a w).getLast? = some b := by
  intro w
  induction w with
  | nil =>
    intro a b h
    rw [isWalk_nil_iff] at h
    simp [nodeSeq, h]
  | cons j w ih =>
    intro a b h
    rw [isWalk_cons_iff] at h
    have hrec := ih (arcHead arcs j) b h.2.2
    have hexp : nodeSeq arcs a (j :: w) = a :: arcHead arcs j :: w.map (arcHead arcs) := by
      simp [nodeSeq]
    rw [hexp, List.getLast?_cons_cons]
    simpa [nodeSeq] using hrec

theorem nodeSeq_bound (arcs : List Arc) (n : ℕ) (hA : ∀ e ∈ arcs, e.tail < n ∧ e.head < n) :
    ∀ (w : List ℕ) (a b : ℕ), a < n → IsWalk arcs a b w → ∀ v ∈ nodeSeq arcs a w, v < n := by
  intro w
  induction w with
  | nil => intro a b ha _ v hv; simp [nodeSeq] at hv; omega
  | cons j w ih =>
    intro a b ha h v hv
    rw [isWalk_cons_iff] at h
    have hhead : arcHead arcs j < n :=
      (hA _ (arc_getD_mem arcs j h.1)).2
    have hexp : nodeSeq arcs a (j :: w) = a :: nodeSeq arcs (arcHead arcs j) w := by
      simp [nodeSeq]
    rw [hexp] at hv
    rcases List.mem_cons.mp hv with h1 | h2
    · omega
    · exact ih (arcHead arcs j) b hhead h.2.2 v h2

theorem walk_split_head (arcs : List Arc) : ∀ (w : List ℕ) (b t v : ℕ),
    IsWalk arcs b t w → v ∈ w.map (arcHead arcs) →
      ∃ wa wb, w = wa ++ wb ∧ wa ≠ [] ∧ IsWalk arcs b v wa ∧ IsWalk arcs v t wb := by
  intro w
  induction w with
  | nil => intro b t v _ hv; simp at hv
  | cons j w ih =>
    intro b t v hw hv
    rw [isWalk_cons_iff] at hw
    rw [List.map_cons] at hv
    rcases List.mem_cons.mp hv with h1 | h2
    · refine ⟨[j], w, by simp, by simp, ?_, ?_⟩
      · rw [isWalk_cons_iff]
        refine ⟨hw.1, hw.2.1, ?_⟩
        rw [isWalk_nil_iff]
        omega
      · rw [h1]
        exact hw.2.2
    · rcases ih (arcHead arcs j) t v hw.2.2 h2 with ⟨wa, wb, heq, hne, hwa, hwb⟩
      refine ⟨j :: wa, wb, by simp [heq], by simp, ?_, hwb⟩
      rw [isWalk_cons_iff]
      exact ⟨hw.1, hw.2.1, hwa⟩

theorem walk_dedup (arcs : List Arc) (hnn : ∀ e ∈ arcs, 0 ≤ e.cost) :
    ∀ (N : ℕ) (w : List ℕ) (b t : ℕ), w.length ≤ N → IsWalk arcs b t w →
      ∃ w2, IsWalk arcs b t w2 ∧ (nodeSeq arcs b w2).Nodup ∧ (∀ j ∈ w2, j ∈ w) ∧
        costSum arcs w2 ≤ costSum arcs w := by
  intro N
  induction N with
  | zero =>
    intro w b t hlen hw
    have : w = [] := List.length_eq_zero.mp (by omega)
    subst this
    exact ⟨[], hw, by simp [nodeSeq], by simp, le_refl _⟩
  | succ N ih =>
    intro w b t hlen hw
    by_cases hb : b ∈ w.map (arcHead arcs)
    · rcases walk_split_head arcs w b t b hw hb with ⟨wa, wb, heq, hne, h1, h2⟩
      have hlenb : wb.length ≤ N := by
        have h3 : w.length = wa.length + wb.length := by simp [heq]
        have h4 : 1 ≤ wa.length := by
          rcases wa with _ | ⟨x, xs⟩
          · exact absurd rfl hne
          · simp
        omega
      rcases ih wb b t hlenb h2 with ⟨w2, hw2, hnd, hsub, hcost⟩
      refine ⟨w2, hw2, hnd, ?_, ?_⟩
      · intro j hj
        rw [heq]
        exact List.mem_append_right wa (hsub j hj)
      · have hwa : 0 ≤ costSum arcs wa :=
          costSum_nonneg arcs hnn wa (walk_mem_lt arcs wa b b h1)
        rw [heq, costSum_append]
        omega
    · rcases w with _ | ⟨j, w1⟩
      · exact ⟨[], hw, by simp [nodeSeq], by simp, le_refl _⟩
      · have hw' := (isWalk_cons_iff arcs b t j w1).mp hw
        rcases ih w1 (arcHead arcs j) t (by simp at hlen; omega) hw'.2.2 with
          ⟨w2, hw2, hnd, hsub, hcost⟩
        refine ⟨j :: w2, ?_, ?_, ?_, ?_⟩
        · rw [isWalk_cons_iff]
          exact ⟨hw'.1, hw'.2.1, hw2⟩
        · have hexp : nodeSeq arcs b (j :: w2) = b :: nodeSeq arcs (arcHead arcs j) w2 := by
            simp [nodeSeq]
          rw [hexp]
          refine List.nodup_cons.mpr ⟨?_, hnd⟩
          intro hmem
          apply hb
          have hexp2 : nodeSeq arcs (arcHead arcs j) w2 =
              arcHead arcs j :: w2.map (arcHead arcs) := rfl
          rw [hexp2] at hmem
          rcases List.mem_cons.mp hmem with h1 | h2
          · rw [h1]
            exact List.mem_map_of_mem (arcHead arcs) (List.mem_cons_self j w1)
          · rcases List.mem_map.mp h2 with ⟨i, hi, hih⟩
            rw [← hih]
            exact List.mem_map_of_mem (arcHead arcs)
              (List.mem_cons_of_mem j (hsub i hi))
        · intro i hi
          rcases List.mem_cons.mp hi with h1 | h2
          · subst h1; exact List.mem_cons_self i w1
          · exact List.mem_cons_of_mem j (hsub i h2)
        · rw [costSum_cons, costSum_cons]
          omega

/-! ### Flow-assignment lemmas -/

theorem lt_length_of_flowAt (f : List Bool) (i : ℕ) (h : flowAt f i = true) : i < f.length := by
  by_contra hc
  unfold flowAt at h
  rw [List.getD_eq_default f false (by omega)] at h
  simp at h

theorem count_true_pos (f : List Bool) (i : ℕ) (h : flowAt f i = true) : 0 < f.count true := by
  have hlt : i < f.length := lt_length_of_flowAt f i h
  unfold flowAt at h
  rw [List.getD_eq_getElem f false hlt] at h
  refine List.count_pos_iff.mpr ?_
  rw [← h]
  exact List.getElem_mem hlt

theorem flowAt_set_false (f : List Bool) (i j : ℕ) :
    flowAt (f.set i false) j = if j = i then false else flowAt f j := by
  unfold flowAt
  rw [List.getD_eq_getElem?_getD, List.getD_eq_getElem?_getD, List.getElem?_set]
  by_cases hji : i = j
  · subst hji
    by_cases hlt : i < f.length <;> simp [hlt]
  · have hji2 : ¬ j = i := fun h => hji h.symm
    simp [hji, hji2]

theorem count_true_set_false (f : List Bool) (i : ℕ) (h : flowAt f i = true) :
    (f.set i false).count true < f.count true := by
  induction f generalizing i with
  | nil =>
    exfalso
    have := lt_length_of_flowAt [] i h
    simp at this
  | cons b bs ih =>
    rcases i with _ | i
    · have hb : b = true := by simpa [flowAt, List.getD_cons_zero] using h
      subst hb
      simp [List.count_cons]
    · have hf : flowAt bs i = true := by simpa [flowAt, List.getD_cons_succ] using h
      have hrec := ih i hf
      simp only [List.set, List.count_cons]
      omega

theorem exists_out_arc (arcs : List Arc) (f : List Bool) (v : ℕ)
    (h : 1 ≤ outFlow arcs f v) :
    ∃ i, i < arcs.length ∧ flowAt f i = true ∧ arcTail arcs i = v := by
  unfold outFlow at h
  rcases Finset.card_pos.mp (Nat.lt_of_lt_of_le Nat.one_pos h) with ⟨i, hi⟩
  simp only [Finset.mem_filter, Finset.mem_range] at hi
  exact ⟨i, hi.1, hi.2.1, hi.2.2⟩

theorem outFlow_set_false (arcs : List Arc) (f : List Bool) (i : ℕ)
    (hi : flowAt f i = true) (hlen : i < arcs.length) (v : ℕ) :
    (outFlow arcs (f.set i false) v : ℤ)
      = (outFlow arcs f v : ℤ) - (if arcTail arcs i = v then 1 else 0) := by
  unfold outFlow
  have hset : (Finset.range arcs.length).filter
      (fun j => flowAt (f.set i false) j = true ∧ arcTail arcs j = v)
      = ((Finset.range arcs.length).filter
        (fun j => flowAt f j = true ∧ arcTail arcs j = v)).erase i := by
    ext j
    simp only [Finset.mem_filter, Finset.mem_erase, Finset.mem_range, flowAt_set_false]
    by_cases hji : j = i
    · subst hji
      simp
    · simp only [if_neg hji]
      tauto
  rw [hset]
  by_cases hv : arcTail arcs i = v
  · have hmem : i ∈ (Finset.range arcs.length).filter
        (fun j => flowAt f j = true ∧ arcTail arcs j = v) := by
      simp [Finset.mem_filter, hlen, hi, hv]
    rw [Finset.card_erase_of_mem hmem]
    have hpos : 0 < ((Finset.range arcs.length).filter
        (fun j => flowAt f j = true ∧ arcTail arcs j = v)).card :=
      Finset.card_pos.mpr ⟨i, hmem⟩
    rw [if_pos hv]
    omega
  · have hnmem : i ∉ (Finset.range arcs.length).filter
        (fun j => flowAt f j = true ∧ arcTail arcs j = v) := by
      simp [Finset.mem_filter, hv]
    rw [Finset.erase_eq_of_not_mem hnmem, if_neg hv]
    omega

theorem inFlow_set_false (arcs : List Arc) (f : List Bool) (i : ℕ)
    (hi : flowAt f i = true) (hlen : i < arcs.length) (v : ℕ) :
    (inFlow arcs (f.set i false) v : ℤ)
      = (inFlow arcs f v : ℤ) - (if arcHead arcs i = v then 1 else 0) := by
  unfold inFlow
  have hset : (Finset.range arcs.length).filter
      (fun j => flowAt (f.set i false) j = true ∧ arcHead arcs j = v)
      = ((Finset.range arcs.length).filter
        (fun j => flowAt f j = true ∧ arcHead arcs j = v)).erase i := by
    ext j
    simp only [Finset.mem_filter, Finset.mem_erase, Finset.mem_range, flowAt_set_false]
    by_cases hji : j = i
    · subst hji
      simp
    · simp only [if_neg hji]
      tauto
  rw [hset]
  by_cases hv : arcHead arcs i = v
  · have hmem : i ∈ (Finset.range arcs.length).filter
        (fun j => flowAt f j = true ∧ arcHead arcs j = v) := by
      simp [Finset.mem_filter, hlen, hi, hv]
    rw [Finset.card_erase_of_mem hmem]
    have hpos : 0 < ((Finset.range arcs.length).filter
        (fun j => flowAt f j = true ∧ arcHead arcs j = v)).card :=
      Finset.card_pos.mpr ⟨i, hmem⟩
    rw [if_pos hv]
    omega
  · have hnmem : i ∉ (Finset.range arcs.length).filter
        (fun j => flowAt f j = true ∧ arcHead arcs j = v) := by
      simp [Finset.mem_filter, hv]
    rw [Finset.erase_eq_of_not_mem hnmem, if_neg hv]
    omega

theorem flowCost_set_false (arcs : List Arc) (f : List Bool) (i : ℕ)
    (hi : flowAt f i = true) (hlen : i < arcs.length) :
    flowCost arcs (f.set i false) = flowCost arcs f - arcCost arcs i := by
  unfold flowCost
  have hset : (Finset.range arcs.length).filter (fun j => flowAt (f.set i false) j = true)
      = ((Finset.range arcs.length).filter (fun j => flowAt f j = true)).erase i := by
    ext j
    simp only [Finset.mem_filter, Finset.mem_erase, Finset.mem_range, flowAt_set_false]
    by_cases hji : j = i
    · subst hji
      simp
    · simp only [if_neg hji]
      tauto
  rw [hset]
  have hmem : i ∈ (Finset.range arcs.length).filter (fun j => flowAt f j = true) := by
    simp [Finset.mem_filter, hlen, hi]
  exact Finset.sum_erase_eq_sub hmem

theorem feasible_shift (n s t : ℕ) (arcs : List Arc) (f : List Bool) (i : ℕ)
    (hf : Feasible n s t arcs f) (hi : flowAt f i = true) (hlen : i < arcs.length) :
    ∀ v < n, (outFlow arcs (f.set i false) v : ℤ) - (inFlow arcs (f.set i false) v : ℤ)
      = supplyAt s t v - (if arcTail arcs i = v then 1 else 0)
        + (if arcHead arcs i = v then 1 else 0) := by
  intro v hv
  rw [outFlow_set_false arcs f i hi hlen v, inFlow_set_false arcs f i hi hlen v]
  have hc := hf.2 v hv
  omega

theorem walk_of_feasible (n t : ℕ) (arcs : List Arc)
    (hA : ∀ e ∈ arcs, e.tail < n ∧ e.head < n) :
    ∀ (N : ℕ) (f : List Bool) (s : ℕ), f.count true ≤ N → s < n → s ≠ t →
      Feasible n s t arcs f →
      ∃ w, IsWalk arcs s t w ∧ w.Nodup ∧ ∀ j ∈ w, flowAt f j = true := by
  intro N
  induction N with
  | zero =>
    intro f s hc hs hst hf
    exfalso
    have hcons := hf.2 s hs
    have hsup : supplyAt s t s = 1 := by simp [supplyAt, hst]
    have hout : 1 ≤ outFlow arcs f s := by omega
    rcases exists_out_arc arcs f s hout with ⟨i, _, hflow, _⟩
    have := count_true_pos f i hflow
    omega
  | succ N ih =>
    intro f s hc hs hst hf
    have hcons := hf.2 s hs
    have hsup : supplyAt s t s = 1 := by simp [supplyAt, hst]
    have hout : 1 ≤ outFlow arcs f s := by omega
    rcases exists_out_arc arcs f s hout with ⟨i, hilen, hflow, htail⟩
    have hcount : (f.set i false).count true < f.count true :=
      count_true_set_false f i hflow
    have hcount2 : (f.set i false).count true ≤ N := by omega
    have hlen2 : (f.set i false).length = arcs.length := by
      rw [List.length_set]
      exact hf.1
    have hshift := feasible_shift n s t arcs f i hf hflow hilen
    by_cases hut : arcHead arcs i = t
    · refine ⟨[i], ?_, by simp, ?_⟩
      · rw [isWalk_cons_iff]
        refine ⟨hilen, htail, ?_⟩
        rw [isWalk_nil_iff]
        omega
      · intro j hj
        have : j = i := by simpa using hj
        subst this
        exact hflow
    · by_cases hus : arcHead arcs i = s
      · have hfeas : Feasible n s t arcs (f.set i false) := by
          refine ⟨hlen2, ?_⟩
          intro v hv
          rw [hshift v hv, htail, hus]
          omega
        rcases ih (f.set i false) s hcount2 hs hst hfeas with ⟨w, hw, hnd, hsup2⟩
        refine ⟨w, hw, hnd, ?_⟩
        intro j hj
        have hj2 := hsup2 j hj
        rw [flowAt_set_false] at hj2
        by_cases hji : j = i
        · rw [if_pos hji] at hj2
          simp at hj2
        · rwa [if_neg hji] at hj2
      · have hun : arcHead arcs i < n := (hA _ (arc_getD_mem arcs i hilen)).2
        have hfeas : Feasible n (arcHead arcs i) t arcs (f.set i false) := by
          refine ⟨hlen2, ?_⟩
          intro v hv
          rw [hshift v hv, htail]
          unfold supplyAt
          split_ifs <;> omega
        rcases ih (f.set i false) (arcHead arcs i) hcount2 hun hut hfeas with
          ⟨w, hw, hnd, hsup2⟩
        refine ⟨i :: w, ?_, ?_, ?_⟩
        · rw [isWalk_cons_iff]
          exact ⟨hilen, htail, hw⟩
        · refine List.nodup_cons.mpr ⟨?_, hnd⟩
          intro hmem
          have hj2 := hsup2 i hmem
          rw [flowAt_set_false] at hj2
          simp at hj2
        · intro j hj
          rcases List.mem_cons.mp hj with h1 | h2
          · subst h1
            exact hflow
          · have hj2 := hsup2 j h2
            rw [flowAt_set_false] at hj2
            by_cases hji : j = i
            · rw [if_pos hji] at hj2
              simp at hj2
            · rwa [if_neg hji] at hj2

/-! ### Enumeration and argmin lemmas -/

theorem allAssignments_mem : ∀ (n : ℕ) (f : List Bool), f ∈ allAssignments n ↔ f.length = n := by
  intro n
  induction n with
  | zero => intro f; simp [allAssignments, List.length_eq_zero]
  | succ n ih =>
    intro f
    unfold allAssignments
    simp only [List.mem_append, List.mem_map]
    constructor
    · intro h
      rcases h with ⟨g, hg, hgf⟩ | ⟨g, hg, hgf⟩ <;> rw [← hgf] <;> simp [(ih g).mp hg]
    · intro h
      rcases f with _ | ⟨b, bs⟩
      · simp at h
      · have hbs : bs.length = n := by simpa using h
        rcases b with _ | _
        · exact Or.inl ⟨bs, (ih bs).mpr hbs, rfl⟩
        · exact Or.inr ⟨bs, (ih bs).mpr hbs, rfl⟩

theorem encodeBits_lt_of_subset : ∀ (g f : List Bool), g.length = f.length →
    (∀ j, flowAt g j = true → flowAt f j = true) → g ≠ f →
    encodeBits g < encodeBits f := by
  intro g
  induction g with
  | nil =>
    intro f hlen _ hne
    have : f = [] := List.length_eq_zero.mp hlen.symm
    exact absurd this.symm hne
  | cons a gs ih =>
    intro f hlen hsub hne
    rcases f with _ | ⟨b, fs⟩
    · simp at hlen
    · have hlen2 : gs.length = fs.length := by simpa using hlen
      have hsub2 : ∀ j, flowAt gs j = true → flowAt fs j = true := by
        intro j hj
        have := hsub (j + 1) (by simpa [flowAt, List.getD_cons_succ] using hj)
        simpa [flowAt, List.getD_cons_succ] using this
      have hhead : a = true → b = true := by
        intro ha
        have := hsub 0 (by simpa [flowAt, List.getD_cons_zero] using ha)
        simpa [flowAt, List.getD_cons_zero] using this
      by_cases hgf : gs = fs
      · subst hgf
        have hab : a ≠ b := fun h => hne (by rw [h])
        rcases a with _ | _ <;> rcases b with _ | _
        · exact absurd rfl hab
        · simp [encodeBits]
        · exact absurd (hhead rfl) (by simp)
        · exact absurd rfl hab
      · have hlt := ih fs hlen2 hsub2 hgf
        rcases a with _ | _ <;> rcases b with _ | _ <;> simp [encodeBits] <;> omega

theorem flowCost_mono (arcs : List Arc) (hnn : ∀ e ∈ arcs, 0 ≤ e.cost) (g f : List Bool)
    (hsub : ∀ j, flowAt g j = true → flowAt f j = true) :
    flowCost arcs g ≤ flowCost arcs f := by
  unfold flowCost
  apply Finset.sum_le_sum_of_subset_of_nonneg
  · intro i hi
    simp only [Finset.mem_filter, Finset.mem_range] at *
    exact ⟨hi.1, hsub i hi.2⟩
  · intro i hi _
    have hir := (Finset.mem_filter.mp hi).1
    simp only [Finset.mem_range] at hir
    exact hnn _ (arc_getD_mem arcs i hir)

theorem keyLE_refl (arcs : List Arc) (f : List Bool) : keyLE arcs f f :=
  Or.inr ⟨rfl, le_refl _⟩

theorem keyLE_trans (arcs : List Arc) (f g h : List Bool)
    (h1 : keyLE arcs f g) (h2 : keyLE arcs g h) : keyLE arcs f h := by
  unfold keyLE at *
  rcases h1 with h1 | ⟨h1a, h1b⟩ <;> rcases h2 with h2 | ⟨h2a, h2b⟩
  · exact Or.inl (lt_trans h1 h2)
  · exact Or.inl (by omega)
  · exact Or.inl (by omega)
  · exact Or.inr ⟨by omega, le_trans h1b h2b⟩

theorem betterB_true_keyLE (arcs : List Arc) (g f : List Bool)
    (h : betterB arcs g f = true) : keyLE arcs g f := by
  unfold betterB at h
  simp only [Bool.or_eq_true, Bool.and_eq_true, decide_eq_true_eq] at h
  unfold keyLE
  rcases h with h | ⟨h1, h2⟩
  · exact Or.inl h
  · exact Or.inr ⟨h1, le_of_lt h2⟩

theorem betterB_false_keyLE (arcs : List Arc) (g f : List Bool)
    (h : betterB arcs g f = false) : keyLE arcs f g := by
  unfold betterB at h
  simp only [Bool.or_eq_false_iff, Bool.and_eq_false_iff, decide_eq_false_iff_not,
    not_lt] at h
  unfold keyLE
  rcases lt_trichotomy (flowCost arcs f) (flowCost arcs g) with h1 | h1 | h1
  · exact Or.inl h1
  · refine Or.inr ⟨h1, ?_⟩
    rcases h.2 with h2 | h2
    · exact absurd h1.symm h2
    · omega
  · omega

theorem foldl_pickMin_spec (arcs : List Arc) : ∀ (fs : List (List Bool)) (acc : List Bool),
    fs.foldl (pickMin arcs) acc ∈ acc :: fs ∧ keyLE arcs (fs.foldl (pickMin arcs) acc) acc ∧
      ∀ g ∈ fs, keyLE arcs (fs.foldl (pickMin arcs) acc) g := by
  intro fs
  induction fs with
  | nil =>
    intro acc
    exact ⟨List.mem_cons_self _ _, keyLE_refl arcs acc, by simp⟩
  | cons g gs ih =>
    intro acc
    have hstep : keyLE arcs (pickMin arcs acc g) acc ∧ keyLE arcs (pickMin arcs acc g) g := by
      unfold pickMin
      rcases hb : betterB arcs g acc with _ | _
      · rw [if_neg Bool.false_ne_true]
        exact ⟨keyLE_refl arcs acc, betterB_false_keyLE arcs g acc hb⟩
      · rw [if_pos rfl]
        exact ⟨betterB_true_keyLE arcs g acc hb, keyLE_refl arcs g⟩
    have hmemstep : pickMin arcs acc g = acc ∨ pickMin arcs acc g = g := by
      unfold pickMin
      rcases betterB arcs g acc with _ | _
      · simp
      · simp
    rcases ih (pickMin arcs acc g) with ⟨hmem, hacc, hall⟩
    have hfold : (g :: gs).foldl (pickMin arcs) acc = gs.foldl (pickMin arcs) (pickMin arcs acc g) := by
      simp [List.foldl_cons]
    rw [hfold]
    refine ⟨?_, ?_, ?_⟩
    · rcases List.mem_cons.mp hmem with h1 | h2
      · rcases hmemstep with h3 | h3 <;> rw [h1, h3]
        · exact List.mem_cons_self _ _
        · exact List.mem_cons_of_mem _ (List.mem_cons_self _ _)
      · exact List.mem_cons_of_mem _ (List.mem_cons_of_mem _ h2)
    · exact keyLE_trans arcs _ _ _ hacc hstep.1
    · intro g2 hg2
      rcases List.mem_cons.mp hg2 with h1 | h2
      · rw [h1]
        exact keyLE_trans arcs _ _ _ hacc hstep.2
      · exact hall g2 h2

theorem argminFlow_spec (arcs : List Arc) (l : List (List Bool)) (f : List Bool)
    (h : argminFlow arcs l = some f) : f ∈ l ∧ ∀ g ∈ l, keyLE arcs f g := by
  rcases l with _ | ⟨f0, fs⟩
  · simp [argminFlow] at h
  · have hf : f = fs.foldl (pickMin arcs) f0 := by
      simpa [argminFlow] using h.symm
    rcases foldl_pickMin_spec arcs fs f0 with ⟨hmem, hacc, hall⟩
    subst hf
    refine ⟨hmem, ?_⟩
    intro g hg
    rcases List.mem_cons.mp hg with h1 | h2
    · rw [h1]
      exact hacc
    · exact hall g h2

theorem argminFlow_none_iff (arcs : List Arc) (l : List (List Bool)) :
    argminFlow arcs l = none ↔ l = [] := by
  rcases l with _ | ⟨f0, fs⟩ <;> simp [argminFlow]

/-! ### Solver characterization -/

theorem solveFlow_feasible (n s t : ℕ) (arcs : List Arc) (f : List Bool)
    (h : solveFlow n s t arcs = some f) : Feasible n s t arcs f := by
  unfold solveFlow at h
  have := (argminFlow_spec arcs _ f h).1
  have hm := List.mem_filter.mp this
  simpa using hm.2

theorem solveFlow_min (n s t : ℕ) (arcs : List Arc) (f : List Bool)
    (h : solveFlow n s t arcs = some f) :
    ∀ g, Feasible n s t arcs g → keyLE arcs f g := by
  intro g hg
  unfold solveFlow at h
  have hall := (argminFlow_spec arcs _ f h).2
  apply hall
  rw [List.mem_filter]
  constructor
  · exact (allAssignments_mem arcs.length g).mpr hg.1
  · simpa using hg

theorem solveFlow_some_of_feasible (n s t : ℕ) (arcs : List Arc) (g : List Bool)
    (hg : Feasible n s t arcs g) : ∃ f, solveFlow n s t arcs = some f := by
  unfold solveFlow
  rcases hr : argminFlow arcs ((allAssignments arcs.length).filter
      (fun f => decide (Feasible n s t arcs f))) with _ | f
  · exfalso
    have hnil := (argminFlow_none_iff arcs _).mp hr
    have hmem : g ∈ (allAssignments arcs.length).filter
        (fun f => decide (Feasible n s t arcs f)) := by
      rw [List.mem_filter]
      exact ⟨(allAssignments_mem arcs.length g).mpr hg.1, by simpa using hg⟩
    rw [hnil] at hmem
    simp at hmem
  · exact ⟨f, rfl⟩

theorem solveFlow_none_infeasible (n s t : ℕ) (arcs : List Arc)
    (h : solveFlow n s t arcs = none) : ∀ g, ¬ Feasible n s t arcs g := by
  intro g hg
  rcases solveFlow_some_of_feasible n s t arcs g hg with ⟨f, hf⟩
  rw [h] at hf
  exact absurd hf (by simp)

theorem solveFlow_support_minimal (n s t : ℕ) (arcs : List Arc) (f : List Bool)
    (hnn : ∀ e ∈ arcs, 0 ≤ e.cost) (h : solveFlow n s t arcs = some f) :
    ∀ g, Feasible n s t arcs g → (∀ j, flowAt g j = true → flowAt f j = true) → g = f := by
  intro g hg hsub
  by_contra hne
  have hkey := solveFlow_min n s t arcs f h g hg
  have hcost : flowCost arcs g ≤ flowCost arcs f := flowCost_mono arcs hnn g f hsub
  have hlenf : f.length = arcs.length := (solveFlow_feasible n s t arcs f h).1
  have hlen : g.length = f.length := by rw [hg.1, hlenf]
  have henc : encodeBits g < encodeBits f := encodeBits_lt_of_subset g f hlen hsub hne
  unfold keyLE at hkey
  rcases hkey with h1 | ⟨h1, h2⟩
  · omega
  · omega

/-! ### Indicator flows of walks -/

theorem indicatorFlow_length (len : ℕ) (w : List ℕ) : (indicatorFlow len w).length = len := by
  simp [indicatorFlow]

theorem flowAt_indicator (len : ℕ) (w : List ℕ) (j : ℕ) :
    flowAt (indicatorFlow len w) j = if j < len then decide (j ∈ w) else false := by
  unfold flowAt indicatorFlow
  by_cases hlt : j < len
  · rw [if_pos hlt]
    have hlen : j < ((List.range len).map (fun i => decide (i ∈ w))).length := by
      simpa using hlt
    rw [List.getD_eq_getElem _ false hlen, List.getElem_map]
    simp [List.getElem_range]
  · rw [if_neg hlt, List.getD_eq_default _ false (by simpa using hlt)]

theorem flowAt_indicator_iff (len : ℕ) (w : List ℕ) (j : ℕ) :
    flowAt (indicatorFlow len w) j = true ↔ j < len ∧ j ∈ w := by
  rw [flowAt_indicator]
  by_cases hlt : j < len
  · simp [hlt]
  · simp [hlt]

theorem walk_conservation (arcs : List Arc) : ∀ (w : List ℕ) (s t v : ℕ),
    IsWalk arcs s t w →
    ((w.filter (fun j => arcTail arcs j == v)).length : ℤ)
      - ((w.filter (fun j => arcHead arcs j == v)).length : ℤ)
      = (if v = s then 1 else 0) - (if v = t then 1 else 0) := by
  intro w
  induction w with
  | nil =>
    intro s t v h
    rw [isWalk_nil_iff] at h
    subst h
    simp
  | cons a w ih =>
    intro s t v h
    rw [isWalk_cons_iff] at h
    have hrec := ih (arcHead arcs a) t v h.2.2
    rw [List.filter_cons, List.filter_cons]
    have htail := h.2.1
    by_cases hT : arcTail arcs a = v <;> by_cases hH : arcHead arcs a = v
    · have hvs : v = s := by omega
      have hvh : v = arcHead arcs a := by omega
      rw [if_pos (by simpa using hT), if_pos (by simpa using hH)]
      rw [if_pos hvs]
      rw [if_pos hvh] at hrec
      simp only [List.length_cons]
      push_cast
      omega
    · have hvs : v = s := by omega
      have hvh : ¬ v = arcHead arcs a := by omega
      rw [if_pos (by simpa using hT), if_neg (by simpa using hH)]
      rw [if_pos hvs]
      rw [if_neg hvh] at hrec
      simp only [List.length_cons]
      push_cast
      omega
    · have hvs : ¬ v = s := by omega
      have hvh : v = arcHead arcs a := by omega
      rw [if_neg (by simpa using hT), if_pos (by simpa using hH)]
      rw [if_neg hvs]
      rw [if_pos hvh] at hrec
      simp only [List.length_cons]
      push_cast
      omega
    · have hvs : ¬ v = s := by omega
      have hvh : ¬ v = arcHead arcs a := by omega
      rw [if_neg (by simpa using hT), if_neg (by simpa using hH)]
      rw [if_neg hvs]
      rw [if_neg hvh] at hrec
      omega

theorem outFlow_indicator (arcs : List Arc) (w : List ℕ) (hnd : w.Nodup)
    (hb : ∀ j ∈ w, j < arcs.length) (v : ℕ) :
    outFlow arcs (indicatorFlow arcs.length w) v
      = (w.filter (fun j => arcTail arcs j == v)).length := by
  unfold outFlow
  have hset : (Finset.range arcs.length).filter
      (fun i => flowAt (indicatorFlow arcs.length w) i = true ∧ arcTail arcs i = v)
      = (w.filter (fun j => arcTail arcs j == v)).toFinset := by
    ext i
    simp only [Finset.mem_filter, Finset.mem_range, List.mem_toFinset, List.mem_filter,
      flowAt_indicator_iff, beq_iff_eq]
    constructor
    · intro h
      exact ⟨h.2.1.2, h.2.2⟩
    · intro h
      exact ⟨hb i h.1, ⟨hb i h.1, h.1⟩, h.2⟩
  rw [hset, List.toFinset_card_of_nodup (List.Nodup.filter _ hnd)]

theorem inFlow_indicator (arcs : List Arc) (w : List ℕ) (hnd : w.Nodup)
    (hb : ∀ j ∈ w, j < arcs.length) (v : ℕ) :
    inFlow arcs (indicatorFlow arcs.length w) v
      = (w.filter (fun j => arcHead arcs j == v)).length := by
  unfold inFlow
  have hset : (Finset.range arcs.length).filter
      (fun i => flowAt (indicatorFlow arcs.length w) i = true ∧ arcHead arcs i = v)
      = (w.filter (fun j => arcHead arcs j == v)).toFinset := by
    ext i
    simp only [Finset.mem_filter, Finset.mem_range, List.mem_toFinset, List.mem_filter,
      flowAt_indicator_iff, beq_iff_eq]
    constructor
    · intro h
      exact ⟨h.2.1.2, h.2.2⟩
    · intro h
      exact ⟨hb i h.1, ⟨hb i h.1, h.1⟩, h.2⟩
  rw [hset, List.toFinset_card_of_nodup (List.Nodup.filter _ hnd)]

theorem indicator_feasible (n s t : ℕ) (arcs : List Arc) (w : List ℕ)
    (hw : IsWalk arcs s t w) (hnd : w.Nodup) (hst : s ≠ t) :
    Feasible n s t arcs (indicatorFlow arcs.length w) := by
  have hb : ∀ j ∈ w, j < arcs.length := walk_mem_lt arcs w s t hw
  refine ⟨indicatorFlow_length arcs.length w, ?_⟩
  intro v _
  rw [outFlow_indicator arcs w hnd hb v, inFlow_indicator arcs w hnd hb v]
  rw [walk_conservation arcs w s t v hw]
  unfold supplyAt
  by_cases h1 : v = t <;> by_cases h2 : v = s <;> simp [h1, h2] <;> omega

theorem flowCost_indicator (arcs : List Arc) (w : List ℕ) (hnd : w.Nodup)
    (hb : ∀ j ∈ w, j < arcs.length) :
    flowCost arcs (indicatorFlow arcs.length w) = costSum arcs w := by
  unfold flowCost
  have hset : (Finset.range arcs.length).filter
      (fun i => flowAt (indicatorFlow arcs.length w) i = true) = w.toFinset := by
    ext i
    simp only [Finset.mem_filter, Finset.mem_range, List.mem_toFinset, flowAt_indicator_iff]
    constructor
    · intro h
      exact h.2.2
    · intro h
      exact ⟨hb i h, hb i h, h⟩
  rw [hset]
  unfold costSum
  rw [List.sum_toFinset _ hnd]

theorem walk_map_tail (arcs : List Arc) : ∀ (w : List ℕ) (a b : ℕ), IsWalk arcs a b w →
    w.map (arcTail arcs) = (nodeSeq arcs a w).dropLast := by
  intro w
  induction w with
  | nil =>
    intro a b _
    simp [nodeSeq]
  | cons j w ih =>
    intro a b h
    rw [isWalk_cons_iff] at h
    have hrec := ih (arcHead arcs j) b h.2.2
    have hexp : nodeSeq arcs a (j :: w) = a :: arcHead arcs j :: w.map (arcHead arcs) := by
      simp [nodeSeq]
    rw [hexp]
    have hexp2 : (a :: arcHead arcs j :: w.map (arcHead arcs)).dropLast
        = a :: (arcHead arcs j :: w.map (arcHead arcs)).dropLast := by
      simp
    rw [hexp2]
    rw [List.map_cons, h.2.1]
    have hrec2 : w.map (arcTail arcs) = (arcHead arcs j :: w.map (arcHead arcs)).dropLast := by
      simpa [nodeSeq] using hrec
    rw [hrec2]

theorem walk_nodup_of_nodeSeq (arcs : List Arc) (w : List ℕ) (a b : ℕ)
    (hw : IsWalk arcs a b w) (hnd : (nodeSeq arcs a w).Nodup) :
    w.Nodup ∧ (w.map (arcTail arcs)).Nodup := by
  constructor
  · have hheads : (w.map (arcHead arcs)).Nodup := (List.nodup_cons.mp hnd).2
    exact List.Nodup.of_map _ hheads
  · rw [walk_map_tail arcs w a b hw]
    exact List.Nodup.sublist (List.dropLast_sublist _) hnd

/-! ### Reconstruction-scan characterization -/

theorem find_append_eq (p : ℕ → Bool) : ∀ (l1 l2 : List ℕ),
    (l1 ++ l2).find? p = match l1.find? p with
      | some x => some x
      | none => l2.find? p := by
  intro l1
  induction l1 with
  | nil => intro l2; simp
  | cons a l ih =>
    intro l2
    rcases hp : p a with _ | _
    · rw [List.cons_append, List.find?_cons_of_neg _ (by simp [hp]),
        List.find?_cons_of_neg _ (by simp [hp])]
      exact ih l2
    · rw [List.cons_append, List.find?_cons_of_pos _ hp, List.find?_cons_of_pos _ hp]

theorem find_range_eq_some_iff (p : ℕ → Bool) : ∀ (n i : ℕ),
    (List.range n).find? p = some i ↔
      i < n ∧ p i = true ∧ ∀ j < i, p j = false := by
  intro n
  induction n with
  | zero =>
    intro i
    simp
  | succ n ih =>
    intro i
    rw [List.range_succ, find_append_eq p]
    rcases hfind : (List.range n).find? p with _ | x
    · have hall : ∀ j < n, p j = false := by
        intro j hj
        have := List.find?_eq_none.mp hfind j (List.mem_range.mpr hj)
        simpa using this
      rcases hp : p n with _ | _
      · rw [List.find?_cons_of_neg _ (by simp [hp])]
        simp only [List.find?_nil]
        constructor
        · intro h
          exact absurd h (by simp)
        · intro h
          exfalso
          rcases Nat.lt_succ_iff_lt_or_eq.mp h.1 with h2 | h2
          · rw [hall i h2] at *
            exact absurd h.2.1 (by simp)
          · subst h2
            rw [hp] at *
            exact absurd h.2.1 (by simp)
      · rw [List.find?_cons_of_pos _ hp]
        constructor
        · intro h
          have hni : n = i := by simpa using h
          subst hni
          exact ⟨Nat.lt_succ_self n, hp, hall⟩
        · intro h
          have : i = n := by
            rcases Nat.lt_succ_iff_lt_or_eq.mp h.1 with h2 | h2
            · exfalso
              rw [hall i h2] at *
              exact absurd h.2.1 (by simp)
            · exact h2
          rw [this]
    · have hx := (ih x).mp hfind
      constructor
      · intro h
        have hxi : x = i := by simpa using h
        subst hxi
        exact ⟨by omega, hx.2.1, hx.2.2⟩
      · intro h
        have : i = x := by
          by_contra hne
          rcases Nat.lt_or_ge i x with h2 | h2
          · have hpf := hx.2.2 i h2
            rw [h.2.1] at hpf
            exact absurd hpf (by simp)
          · have h3 : x < i := by omega
            have hpf := h.2.2 x h3
            rw [hx.2.1] at hpf
            exact absurd hpf (by simp)
        rw [this]

theorem findFlowArc_some_iff (arcs : List Arc) (f : List Bool) (cur i : ℕ) :
    findFlowArc arcs f cur = some i ↔
      i < arcs.length ∧ flowAt f i = true ∧ arcTail arcs i = cur ∧
        ∀ j < i, ¬ (flowAt f j = true ∧ arcTail arcs j = cur) := by
  unfold findFlowArc
  rw [find_range_eq_some_iff]
  constructor
  · intro h
    refine ⟨h.1, ?_, ?_, ?_⟩
    · have := h.2.1
      simp only [Bool.and_eq_true, beq_iff_eq] at this
      exact this.1
    · have := h.2.1
      simp only [Bool.and_eq_true, beq_iff_eq] at this
      exact this.2
    · intro j hj hc
      have := h.2.2 j hj
      simp only [Bool.and_eq_false_iff] at this
      rcases this with h1 | h1
      · rw [hc.1] at h1
        exact absurd h1 (by simp)
      · simp [hc.2] at h1
  · intro h
    refine ⟨h.1, ?_, ?_⟩
    · simp only [Bool.and_eq_true, beq_iff_eq]
      exact ⟨h.2.1, h.2.2.1⟩
    · intro j hj
      have := h.2.2.2 j hj
      simp only [Bool.and_eq_false_iff, beq_eq_false_iff_ne]
      by_cases hf : flowAt f j = true
      · refine Or.inr ?_
        intro hc
        exact this ⟨hf, hc⟩
      · exact Or.inl (by simpa using hf)

theorem findFlowArc_eq_some_of_unique (arcs : List Arc) (f : List Bool) (cur j : ℕ)
    (hj : j < arcs.length) (hflow : flowAt f j = true) (htail : arcTail arcs j = cur)
    (huniq : ∀ j2, j2 < arcs.length → flowAt f j2 = true → arcTail arcs j2 = cur → j2 = j) :
    findFlowArc arcs f cur = some j := by
  rcases hfind : findFlowArc arcs f cur with _ | x
  · exfalso
    unfold findFlowArc at hfind
    have hn := List.find?_eq_none.mp hfind j (List.mem_range.mpr hj)
    simp only [Bool.and_eq_true, beq_iff_eq, not_and] at hn
    exact hn hflow htail
  · have hx := (findFlowArc_some_iff arcs f cur x).mp hfind
    have := huniq x hx.1 hx.2.1 hx.2.2.1
    rw [this]

theorem getD_inj_of_nodup (l : List String) (hnd : l.Nodup) (i j : ℕ)
    (hi : i < l.length) (hj : j < l.length) (h : l.getD i "" = l.getD j "") : i = j := by
  rw [List.getD_eq_getElem l "" hi, List.getD_eq_getElem l "" hj] at h
  exact (List.Nodup.getElem_inj_iff hnd).mp h

theorem nodup_lt_length_le (l : List ℕ) (n : ℕ) (hnd : l.Nodup) (hb : ∀ v ∈ l, v < n) :
    l.length ≤ n := by
  have hsub : l.toFinset ⊆ Finset.range n := by
    intro v hv
    rw [Finset.mem_range]
    exact hb v (List.mem_toFinset.mp hv)
  have := Finset.card_le_card hsub
  rw [List.toFinset_card_of_nodup hnd, Finset.card_range] at this
  exact this

theorem traceLoop_walk (node_ids : List String) (arcs : List Arc) (f : List Bool) (t : ℕ)
    (hids : node_ids.Nodup)
    (hA : ∀ e ∈ arcs, e.tail < node_ids.length ∧ e.head < node_ids.length)
    (huniq : ∀ v j1 j2, j1 < arcs.length → j2 < arcs.length →
      flowAt f j1 = true → flowAt f j2 = true →
      arcTail arcs j1 = v → arcTail arcs j2 = v → j1 = j2)
    (ht : t < node_ids.length) :
    ∀ (w : List ℕ) (s2 fuel : ℕ) (acc : List String),
      IsWalk arcs s2 t w → (nodeSeq arcs s2 w).Nodup →
      (∀ j ∈ w, flowAt f j = true) → s2 < node_ids.length → w.length + 1 ≤ fuel →
      traceLoop node_ids arcs f (node_ids.getD t "") fuel s2 acc
        = some (acc ++ w.map (fun j => node_ids.getD (arcHead arcs j) "")) := by
  intro w
  induction w with
  | nil =>
    intro s2 fuel acc hw _ _ _ hfuel
    rw [isWalk_nil_iff] at hw
    subst hw
    rcases fuel with _ | fuel
    · omega
    · unfold traceLoop
      rw [if_pos rfl]
      simp
  | cons j w ih =>
    intro s2 fuel acc hw hns hsup hs2 hfuel
    rw [isWalk_cons_iff] at hw
    have hst : s2 ≠ t := by
      have hlast := nodeSeq_getLast arcs (j :: w) s2 t (by
        rw [isWalk_cons_iff]
        exact hw)
      have hexp : nodeSeq arcs s2 (j :: w)
          = s2 :: arcHead arcs j :: w.map (arcHead arcs) := by
        simp [nodeSeq]
      rw [hexp] at hlast hns
      rw [List.getLast?_cons_cons] at hlast
      have hmem : t ∈ arcHead arcs j :: w.map (arcHead arcs) := by
        rcases List.mem_getLast?_eq_getLast (by rw [hlast]; rfl) with ⟨hne, hteq⟩
        rw [hteq]
        exact List.getLast_mem hne
      intro hc
      subst hc
      exact (List.nodup_cons.mp hns).1 hmem
    have hne : ¬ node_ids.getD s2 "" = node_ids.getD t "" := by
      intro hc
      exact hst (getD_inj_of_nodup node_ids hids s2 t hs2 ht hc)
    have hfind : findFlowArc arcs f s2 = some j := by
      apply findFlowArc_eq_some_of_unique arcs f s2 j hw.1
        (hsup j (List.mem_cons_self j w)) hw.2.1
      intro j2 hj2 hfl2 htl2
      exact huniq s2 j2 j hj2 hw.1 hfl2 (hsup j (List.mem_cons_self j w)) htl2 hw.2.1
    rcases fuel with _ | fuel
    · simp at hfuel
    · have hstep : traceLoop node_ids arcs f (node_ids.getD t "") (fuel + 1) s2 acc
        = traceLoop node_ids arcs f (node_ids.getD t "") fuel (arcHead arcs j)
            (acc ++ [node_ids.getD (arcHead arcs j) ""]) := by
        show (if node_ids.getD s2 "" = node_ids.getD t "" then some acc
          else match findFlowArc arcs f s2 with
            | some i => traceLoop node_ids arcs f (node_ids.getD t "") fuel (arcHead arcs i)
                (acc ++ [node_ids.getD (arcHead arcs i) ""])
            | none => traceLoop node_ids arcs f (node_ids.getD t "") fuel s2 acc) = _
        rw [if_neg hne, hfind]
      rw [hstep]
      have hhead : arcHead arcs j < node_ids.length := (hA _ (arc_getD_mem arcs j hw.1)).2
      have hns2 : (nodeSeq arcs (arcHead arcs j) w).Nodup := by
        have hexp : nodeSeq arcs s2 (j :: w)
            = s2 :: nodeSeq arcs (arcHead arcs j) w := by
          simp [nodeSeq]
        rw [hexp] at hns
        exact (List.nodup_cons.mp hns).2
      have hsup2 : ∀ i ∈ w, flowAt f i = true := by
        intro i hi
        exact hsup i (List.mem_cons_of_mem j hi)
      rw [ih (arcHead arcs j) fuel (acc ++ [node_ids.getD (arcHead arcs j) ""])
        hw.2.2 hns2 hsup2 hhead (by simp at hfuel; omega)]
      simp

/-! ### Main solver-pipeline characterization -/

theorem find_optimal_spec (node_ids : List String) (edges : List EdgeRow)
    (sId tId : String) (s t : ℕ) (arcs : List Arc)
    (hids : node_ids.Nodup)
    (hs : create_id_to_index_mapping node_ids sId = some s)
    (ht : create_id_to_index_mapping node_ids tId = some t)
    (hst : s ≠ t)
    (hb : buildArcs (create_id_to_index_mapping node_ids) edges = some arcs)
    (hnn : ∀ e ∈ arcs, 0 ≤ e.cost)
    (hconn : ∃ w0, IsWalk arcs s t w0) :
    ∃ f w, solveFlow node_ids.length s t arcs = some f
      ∧ Feasible node_ids.length s t arcs f
      ∧ (∀ g, Feasible node_ids.length s t arcs g → keyLE arcs f g)
      ∧ IsWalk arcs s t w ∧ (nodeSeq arcs s w).Nodup
      ∧ (∀ j, flowAt f j = true ↔ j ∈ w)
      ∧ flowCost arcs f = costSum arcs w
      ∧ ∀ fuel, node_ids.length ≤ fuel →
          find_optimal_path_ortools node_ids edges sId tId fuel
            = some (SolveResult.found
                ((nodeSeq arcs s w).map (fun v => node_ids.getD v "")) (flowCost arcs f)) := by
  have hA := buildArcs_endpoints_lt node_ids edges arcs hb
  have hsn : s < node_ids.length := create_id_lt _ _ _ hs
  have htn : t < node_ids.length := create_id_lt _ _ _ ht
  rcases hconn with ⟨w0, hw0⟩
  rcases walk_dedup arcs hnn w0.length w0 s t (le_refl _) hw0 with ⟨w1, hw1, hns1, hsub1, _⟩
  have hnd1 : w1.Nodup := (walk_nodup_of_nodeSeq arcs w1 s t hw1 hns1).1
  have hfeas1 : Feasible node_ids.length s t arcs (indicatorFlow arcs.length w1) :=
    indicator_feasible _ s t arcs w1 hw1 hnd1 hst
  rcases solveFlow_some_of_feasible _ s t arcs _ hfeas1 with ⟨f, hsolve⟩
  have hfeasf := solveFlow_feasible _ s t arcs f hsolve
  have hmin := solveFlow_min _ s t arcs f hsolve
  rcases walk_of_feasible node_ids.length t arcs hA (f.count true) f s (le_refl _) hsn hst
    hfeasf with ⟨w3, hw3, hnd3, hsup3⟩
  rcases walk_dedup arcs hnn w3.length w3 s t (le_refl _) hw3 with ⟨w4, hw4, hns4, hsub4, _⟩
  have hnd4 : w4.Nodup := (walk_nodup_of_nodeSeq arcs w4 s t hw4 hns4).1
  have hmem4 : ∀ j ∈ w4, j < arcs.length := walk_mem_lt arcs w4 s t hw4
  have hfeas4 : Feasible node_ids.length s t arcs (indicatorFlow arcs.length w4) :=
    indicator_feasible _ s t arcs w4 hw4 hnd4 hst
  have hsub : ∀ j, flowAt (indicatorFlow arcs.length w4) j = true → flowAt f j = true := by
    intro j hj
    rw [flowAt_indicator_iff] at hj
    exact hsup3 j (hsub4 j hj.2)
  have hind_eq : indicatorFlow arcs.length w4 = f :=
    solveFlow_support_minimal _ s t arcs f hnn hsolve _ hfeas4 hsub
  have hsupiff : ∀ j, flowAt f j = true ↔ j ∈ w4 := by
    intro j
    rw [← hind_eq, flowAt_indicator_iff]
    constructor
    · intro h
      exact h.2
    · intro h
      exact ⟨hmem4 j h, h⟩
  have hcost : flowCost arcs f = costSum arcs w4 := by
    rw [← hind_eq]
    exact flowCost_indicator arcs w4 hnd4 hmem4
  refine ⟨f, w4, hsolve, hfeasf, hmin, hw4, hns4, hsupiff, hcost, ?_⟩
  intro fuel hfuel
  have htnd : (w4.map (arcTail arcs)).Nodup := (walk_nodup_of_nodeSeq arcs w4 s t hw4 hns4).2
  have huniq : ∀ v j1 j2, j1 < arcs.length → j2 < arcs.length →
      flowAt f j1 = true → flowAt f j2 = true →
      arcTail arcs j1 = v → arcTail arcs j2 = v → j1 = j2 := by
    intro v j1 j2 _ _ hf1 hf2 ht1 ht2
    have hm1 : j1 ∈ w4 := (hsupiff j1).mp hf1
    have hm2 : j2 ∈ w4 := (hsupiff j2).mp hf2
    exact List.inj_on_of_nodup_map htnd hm1 hm2 (by rw [ht1, ht2])
  have hlen4 : w4.length + 1 ≤ node_ids.length := by
    have hb4 : ∀ v ∈ nodeSeq arcs s w4, v < node_ids.length :=
      nodeSeq_bound arcs node_ids.length hA w4 s t hsn hw4
    have := nodup_lt_length_le (nodeSeq arcs s w4) node_ids.length hns4 hb4
    simpa [nodeSeq] using this
  have hendid : node_ids.getD t "" = tId := create_id_getD node_ids tId t ht
  have hstartid : node_ids.getD s "" = sId := create_id_getD node_ids sId s hs
  have htrace := traceLoop_walk node_ids arcs f t hids hA huniq htn w4 s fuel [sId]
    hw4 hns4 (fun j hj => (hsupiff j).mpr hj) hsn (by omega)
  rw [hendid] at htrace
  unfold find_optimal_path_ortools
  rw [hs, ht, hb]
  simp only [hsolve, htrace, Option.map_some']
  have hstartid2 : node_ids[s]?.getD "" = sId := by
    rw [← List.getD_eq_getElem?_getD]
    exact hstartid
  simp [nodeSeq, hstartid2]

/-! ### Global conservation and infeasibility lemmas -/

theorem sum_outFlow_eq (n : ℕ) (arcs : List Arc) (f : List Bool)
    (hT : ∀ e ∈ arcs, e.tail < n) :
    ∑ v ∈ Finset.range n, outFlow arcs f v
      = ((Finset.range arcs.length).filter (fun i => flowAt f i = true)).card := by
  unfold outFlow
  have h1 : ∀ v ∈ Finset.range n,
      ((Finset.range arcs.length).filter
        (fun i => flowAt f i = true ∧ arcTail arcs i = v)).card
        = ∑ i ∈ Finset.range arcs.length,
            (if flowAt f i = true ∧ arcTail arcs i = v then 1 else 0) := by
    intro v _
    rw [Finset.card_filter]
  rw [Finset.sum_congr rfl h1, Finset.sum_comm, Finset.card_filter]
  apply Finset.sum_congr rfl
  intro i hi
  rw [Finset.mem_range] at hi
  by_cases hfl : flowAt f i = true
  · have htl : arcTail arcs i < n := hT _ (arc_getD_mem arcs i hi)
    rw [if_pos hfl]
    have h2 : ∀ v, (if flowAt f i = true ∧ arcTail arcs i = v then 1 else 0)
        = (if arcTail arcs i = v then 1 else 0) := by
      intro v
      by_cases h : arcTail arcs i = v <;> simp [h, hfl]
    rw [Finset.sum_congr rfl (fun v _ => h2 v)]
    rw [Finset.sum_ite_eq (Finset.range n) (arcTail arcs i) (fun _ => 1)]
    simp [htl]
  · rw [if_neg hfl]
    apply Finset.sum_eq_zero
    intro v _
    simp [hfl]

theorem sum_inFlow_eq (n : ℕ) (arcs : List Arc) (f : List Bool)
    (hH : ∀ e ∈ arcs, e.head < n) :
    ∑ v ∈ Finset.range n, inFlow arcs f v
      = ((Finset.range arcs.length).filter (fun i => flowAt f i = true)).card := by
  unfold inFlow
  have h1 : ∀ v ∈ Finset.range n,
      ((Finset.range arcs.length).filter
        (fun i => flowAt f i = true ∧ arcHead arcs i = v)).card
        = ∑ i ∈ Finset.range arcs.length,
            (if flowAt f i = true ∧ arcHead arcs i = v then 1 else 0) := by
    intro v _
    rw [Finset.card_filter]
  rw [Finset.sum_congr rfl h1, Finset.sum_comm, Finset.card_filter]
  apply Finset.sum_congr rfl
  intro i hi
  rw [Finset.mem_range] at hi
  by_cases hfl : flowAt f i = true
  · have htl : arcHead arcs i < n := hH _ (arc_getD_mem arcs i hi)
    rw [if_pos hfl]
    have h2 : ∀ v, (if flowAt f i = true ∧ arcHead arcs i = v then 1 else 0)
        = (if arcHead arcs i = v then 1 else 0) := by
      intro v
      by_cases h : arcHead arcs i = v <;> simp [h, hfl]
    rw [Finset.sum_congr rfl (fun v _ => h2 v)]
    rw [Finset.sum_ite_eq (Finset.range n) (arcHead arcs i) (fun _ => 1)]
    simp [htl]
  · rw [if_neg hfl]
    apply Finset.sum_eq_zero
    intro v _
    simp [hfl]

theorem not_feasible_same (n s : ℕ) (arcs : List Arc) (f : List Bool)
    (hA : ∀ e ∈ arcs, e.tail < n ∧ e.head < n) (hs : s < n) :
    ¬ Feasible n s s arcs f := by
  intro hf
  have hsum : ∑ v ∈ Finset.range n, ((outFlow arcs f v : ℤ) - (inFlow arcs f v : ℤ))
      = ∑ v ∈ Finset.range n, supplyAt s s v :=
    Finset.sum_congr rfl (fun v hv => hf.2 v (Finset.mem_range.mp hv))
  have hzero : ∑ v ∈ Finset.range n, ((outFlow arcs f v : ℤ) - (inFlow arcs f v : ℤ)) = 0 := by
    rw [Finset.sum_sub_distrib]
    have hcast1 : ∑ v ∈ Finset.range n, ((outFlow arcs f v : ℤ))
        = ((∑ v ∈ Finset.range n, outFlow arcs f v : ℕ) : ℤ) := by
      rw [Nat.cast_sum]
    have hcast2 : ∑ v ∈ Finset.range n, ((inFlow arcs f v : ℤ))
        = ((∑ v ∈ Finset.range n, inFlow arcs f v : ℕ) : ℤ) := by
      rw [Nat.cast_sum]
    rw [hcast1, hcast2, sum_outFlow_eq n arcs f (fun e he => (hA e he).1),
      sum_inFlow_eq n arcs f (fun e he => (hA e he).2)]
    omega
  have hsupply : ∑ v ∈ Finset.range n, supplyAt s s v = -1 := by
    have h2 : ∀ v, supplyAt s s v = if v = s then -1 else 0 := by
      intro v
      unfold supplyAt
      by_cases h : v = s <;> simp [h]
    rw [Finset.sum_congr rfl (fun v _ => h2 v)]
    rw [Finset.sum_ite_eq' (Finset.range n) s (fun _ => (-1 : ℤ))]
    simp [hs]
  rw [hzero, hsupply] at hsum
  exact absurd hsum (by norm_num)

/-! ### Pipeline assembly lemmas for failure outcomes -/

theorem find_optimal_eq_notFound (node_ids : List String) (edges : List EdgeRow)
    (sId tId : String) (s t : ℕ) (arcs : List Arc)
    (hs : create_id_to_index_mapping node_ids sId = some s)
    (ht : create_id_to_index_mapping node_ids tId = some t)
    (hb : buildArcs (create_id_to_index_mapping node_ids) edges = some arcs)
    (hnone : solveFlow node_ids.length s t arcs = none) :
    ∀ fuel, find_optimal_path_ortools node_ids edges sId tId fuel
      = some SolveResult.notFound := by
  intro fuel
  unfold find_optimal_path_ortools
  rw [hs, ht, hb]
  simp only [hnone]

theorem find_optimal_eq_keyError (node_ids : List String) (edges : List EdgeRow)
    (sId tId : String) (s t : ℕ)
    (hs : create_id_to_index_mapping node_ids sId = some s)
    (ht : create_id_to_index_mapping node_ids tId = some t)
    (hbn : buildArcs (create_id_to_index_mapping node_ids) edges = none) :
    ∀ fuel, find_optimal_path_ortools node_ids edges sId tId fuel
      = some SolveResult.keyError := by
  intro fuel
  unfold find_optimal_path_ortools
  rw [hs, ht, hbn]

theorem flowCost_le_walk (n s t : ℕ) (arcs : List Arc) (f : List Bool)
    (hnn : ∀ e ∈ arcs, 0 ≤ e.cost) (hsolve : solveFlow n s t arcs = some f)
    (hst : s ≠ t) :
    ∀ w2, IsWalk arcs s t w2 → flowCost arcs f ≤ costSum arcs w2 := by
  intro w2 hw2
  rcases walk_dedup arcs hnn w2.length w2 s t (le_refl _) hw2 with
    ⟨w2d, hw2d, hns, hsub, hcost⟩
  have hnd : w2d.Nodup := (walk_nodup_of_nodeSeq arcs w2d s t hw2d hns).1
  have hfeas := indicator_feasible n s t arcs w2d hw2d hnd hst
  have hkey := solveFlow_min n s t arcs f hsolve _ hfeas
  have hic : flowCost arcs (indicatorFlow arcs.length w2d) = costSum arcs w2d :=
    flowCost_indicator arcs w2d hnd (walk_mem_lt arcs w2d s t hw2d)
  unfold keyLE at hkey
  rcases hkey with h | h
  · omega
  · omega

/-! ### Truncation lemmas -/

theorem intTrunc_intCast (m : ℤ) : intTrunc (m : ℚ) = m := by
  unfold intTrunc
  by_cases h : (0 : ℚ) ≤ (m : ℚ)
  · rw [if_pos h, Int.floor_intCast]
  · rw [if_neg h, Int.ceil_intCast]

theorem intTrunc_mono (q r : ℚ) (h : q ≤ r) : intTrunc q ≤ intTrunc r := by
  unfold intTrunc
  by_cases hq : 0 ≤ q <;> by_cases hr : 0 ≤ r
  · rw [if_pos hq, if_pos hr]
    exact Int.floor_le_floor h
  · exact absurd (le_trans hq h) hr
  · rw [if_neg hq, if_pos hr]
    have h1 : ⌈q⌉ ≤ 0 := Int.ceil_le.mpr (by push_cast; linarith)
    have h2 : 0 ≤ ⌊r⌋ := Int.floor_nonneg.mpr hr
    omega
  · rw [if_neg hq, if_neg hr]
    exact Int.ceil_le_ceil h

theorem intTrunc_nonneg (q : ℚ) (h : 0 ≤ q) : 0 ≤ intTrunc q := by
  unfold intTrunc
  rw [if_pos h]
  exact Int.floor_nonneg.mpr h

theorem buildArcs_truncEdges (idx : String → Option ℕ) : ∀ (edges : List EdgeRow),
    buildArcs idx (truncEdges edges) = buildArcs idx edges := by
  intro edges
  induction edges with
  | nil => rfl
  | cons e es ih =>
    show buildArcs idx ({ e with cost_eur := (intTrunc e.cost_eur : ℚ) } :: truncEdges es)
      = buildArcs idx (e :: es)
    unfold buildArcs
    rcases hs : idx e.source with _ | u <;> rcases ht : idx e.target with _ | v <;>
      simp only [hs, ht]
    rw [ih, intTrunc_intCast]

/-! ### Generic getD/set lemmas -/

theorem getD_set_self {α : Type} [Inhabited α] (l : List α) (j : ℕ) (a : α)
    (hj : j < l.length) : (l.set j a).getD j default = a := by
  rw [List.getD_eq_getElem _ default (by simpa using hj)]
  simp [List.getElem_set]

theorem getD_set_ne {α : Type} [Inhabited α] (l : List α) (i j : ℕ) (a : α)
    (hne : i ≠ j) : (l.set j a).getD i default = l.getD i default := by
  by_cases hi : i < l.length
  · rw [List.getD_eq_getElem _ default (by simpa using hi),
      List.getD_eq_getElem _ default hi]
    rw [List.getElem_set, if_neg (fun h => hne h.symm)]
  · rw [List.getD_eq_default _ default (by simp; omega),
      List.getD_eq_default _ default (by omega)]

/-! ### Cost-only arc mutation lemmas -/

theorem arcTail_set_cost (arcs : List Arc) (j : ℕ) (c : ℤ) (i : ℕ) (hj : j < arcs.length) :
    arcTail (arcs.set j { arcs.getD j default with cost := c }) i = arcTail arcs i := by
  unfold arcTail
  by_cases hij : i = j
  · subst hij
    rw [getD_set_self arcs i _ hj]
  · rw [getD_set_ne arcs i j _ hij]

theorem arcHead_set_cost (arcs : List Arc) (j : ℕ) (c : ℤ) (i : ℕ) (hj : j < arcs.length) :
    arcHead (arcs.set j { arcs.getD j default with cost := c }) i = arcHead arcs i := by
  unfold arcHead
  by_cases hij : i = j
  · subst hij
    rw [getD_set_self arcs i _ hj]
  · rw [getD_set_ne arcs i j _ hij]

theorem outFlow_set_cost (arcs : List Arc) (j : ℕ) (c : ℤ) (f : List Bool) (v : ℕ)
    (hj : j < arcs.length) :
    outFlow (arcs.set j { arcs.getD j default with cost := c }) f v = outFlow arcs f v := by
  unfold outFlow
  rw [List.length_set]
  apply congrArg
  apply Finset.filter_congr
  intro i _
  rw [arcTail_set_cost arcs j c i hj]

theorem inFlow_set_cost (arcs : List Arc) (j : ℕ) (c : ℤ) (f : List Bool) (v : ℕ)
    (hj : j < arcs.length) :
    inFlow (arcs.set j { arcs.getD j default with cost := c }) f v = inFlow arcs f v := by
  unfold inFlow
  rw [List.length_set]
  apply congrArg
  apply Finset.filter_congr
  intro i _
  rw [arcHead_set_cost arcs j c i hj]

theorem feasible_set_cost (n s t : ℕ) (arcs : List Arc) (j : ℕ) (c : ℤ) (f : List Bool)
    (hj : j < arcs.length) :
    Feasible n s t (arcs.set j { arcs.getD j default with cost := c }) f
      ↔ Feasible n s t arcs f := by
  unfold Feasible
  rw [List.length_set]
  constructor
  · intro h
    refine ⟨h.1, ?_⟩
    intro v hv
    have := h.2 v hv
    rwa [outFlow_set_cost arcs j c f v hj, inFlow_set_cost arcs j c f v hj] at this
  · intro h
    refine ⟨h.1, ?_⟩
    intro v hv
    rw [outFlow_set_cost arcs j c f v hj, inFlow_set_cost arcs j c f v hj]
    exact h.2 v hv

theorem flowCost_set_cost (arcs : List Arc) (j : ℕ) (c : ℤ) (g : List Bool)
    (hj : j < arcs.length) :
    flowCost (arcs.set j { arcs.getD j default with cost := c }) g
      = flowCost arcs g + (if flowAt g j = true then c - arcCost arcs j else 0) := by
  unfold flowCost
  rw [List.length_set]
  have hcost : ∀ i, arcCost (arcs.set j { arcs.getD j default with cost := c }) i
      = arcCost arcs i + (if i = j then c - arcCost arcs j else 0) := by
    intro i
    by_cases hij : i = j
    · subst hij
      unfold arcCost
      rw [getD_set_self arcs i _ hj, if_pos rfl]
      simp
    · unfold arcCost
      rw [getD_set_ne arcs i j _ hij, if_neg hij]
      simp
  rw [Finset.sum_congr rfl (fun i _ => hcost i), Finset.sum_add_distrib]
  congr 1
  rw [Finset.sum_ite_eq' ((Finset.range arcs.length).filter (fun i => flowAt g i = true)) j
    (fun _ => c - arcCost arcs j)]
  simp only [Finset.mem_filter, Finset.mem_range]
  by_cases hg : flowAt g j = true
  · rw [if_pos ⟨hj, hg⟩, if_pos hg]
  · rw [if_neg (by tauto), if_neg hg]

theorem isWalk_set_cost (arcs : List Arc) (j : ℕ) (c : ℤ) (hj : j < arcs.length) :
    ∀ (w : List ℕ) (a b : ℕ),
      IsWalk (arcs.set j { arcs.getD j default with cost := c }) a b w
        ↔ IsWalk arcs a b w := by
  intro w
  induction w with
  | nil =>
    intro a b
    rw [isWalk_nil_iff, isWalk_nil_iff]
  | cons i w ih =>
    intro a b
    rw [isWalk_cons_iff, isWalk_cons_iff, List.length_set,
      arcTail_set_cost arcs j c i hj, arcHead_set_cost arcs j c i hj, ih]

theorem costSum_set_cost_of_not_mem (arcs : List Arc) (j : ℕ) (c : ℤ) (w : List ℕ)
    (hnm : j ∉ w) :
    costSum (arcs.set j { arcs.getD j default with cost := c }) w = costSum arcs w := by
  unfold costSum
  congr 1
  apply List.map_congr_left
  intro i hi
  unfold arcCost
  rw [getD_set_ne arcs i j _ (fun h => hnm (h ▸ hi))]

theorem buildArcs_set (idx : String → Option ℕ) : ∀ (edges : List EdgeRow) (arcs : List Arc)
    (j : ℕ) (q : ℚ), buildArcs idx edges = some arcs → j < edges.length →
    buildArcs idx (edges.set j { edges.getD j default with cost_eur := q })
      = some (arcs.set j { arcs.getD j default with cost := intTrunc q }) := by
  intro edges
  induction edges with
  | nil =>
    intro arcs j q _ hj
    simp at hj
  | cons e es ih =>
    intro arcs j q hb hj
    unfold buildArcs at hb
    rcases hs : idx e.source with _ | u <;> rw [hs] at hb
    · simp at hb
    · rcases ht : idx e.target with _ | v <;> rw [ht] at hb
      · simp at hb
      · rcases hrec : buildArcs idx es with _ | rest <;> rw [hrec] at hb
        · simp at hb
        · simp only [Option.map_some'] at hb
          have harcs : arcs = ⟨u, v, intTrunc e.cost_eur⟩ :: rest :=
            (Option.some.inj hb).symm
          subst harcs
          rcases j with _ | j
          · show buildArcs idx ({ e with cost_eur := q } :: es) = _
            unfold buildArcs
            rw [hs, ht, hrec]
            rfl
          · show buildArcs idx (e :: es.set j { es.getD j default with cost_eur := q }) = _
            unfold buildArcs
            rw [hs, ht, ih rest j q hrec (by simpa using hj)]
            rfl

/-! ### Disruption-simulator lemmas -/

theorem pathEdges_eq_nil_of_short (path : List String) (h : path.length < 2) :
    pathEdges path = [] := by
  rcases path with _ | ⟨a, rest⟩
  · rfl
  · rcases rest with _ | ⟨b, rest2⟩
    · rfl
    · simp at h
      omega

theorem getD_mod_mem (l : List ℕ) (k : ℕ) (hne : l ≠ []) : l.getD (k % l.length) 0 ∈ l := by
  have hpos : 0 < l.length := List.length_pos.mpr hne
  have hlt : k % l.length < l.length := Nat.mod_lt k hpos
  rw [List.getD_eq_getElem l 0 hlt]
  exact List.getElem_mem hlt

theorem mem_onPathIndices (edges : List EdgeRow) (pe : List (String × String)) (i : ℕ) :
    i ∈ onPathIndices edges pe ↔ i < edges.length ∧
      ((edges.getD i default).source, (edges.getD i default).target) ∈ pe := by
  unfold onPathIndices
  rw [List.mem_filter, List.mem_range]
  simp

theorem simulate_disruption_empty_path (edges : List EdgeRow) (path : List String)
    (factor : ℚ) (k : ℕ) (h : pathEdges path = []) :
    simulate_disruption edges path factor k = some ⟨edges, true, false, none⟩ := by
  unfold simulate_disruption
  rw [if_pos h]

theorem simulate_disruption_on_path (edges : List EdgeRow) (path : List String)
    (factor : ℚ) (k : ℕ)
    (hpe : pathEdges path ≠ [])
    (hon : onPathIndices edges (pathEdges path) ≠ []) :
    simulate_disruption edges path factor k
      = some ⟨applyDisruption edges
          ((onPathIndices edges (pathEdges path)).getD
            (k % (onPathIndices edges (pathEdges path)).length) 0) factor,
          false, false,
          some ((onPathIndices edges (pathEdges path)).getD
            (k % (onPathIndices edges (pathEdges path)).length) 0)⟩ := by
  unfold simulate_disruption
  rw [if_neg hpe, if_neg hon]

/-! ### Claim theorems -/

/-- Claim C6: if the route passed to `simulate_disruption` has fewer than 2
nodes, the function signals the empty-path condition (the empty-path warning
is raised and no disruption event is produced) and leaves every edge's cost
unchanged — the returned table is exactly the input table. -/
theorem C6_empty_route_no_mutation (edges : List EdgeRow) (path : List String)
    (factor : ℚ) (k : ℕ) (h : path.length < 2) :
    simulate_disruption edges path factor k
      = some ⟨edges, true, false, none⟩ :=
  simulate_disruption_empty_path edges path factor k (pathEdges_eq_nil_of_short path h)

/-- Witness for C6 at a concrete input: a one-node route on a one-edge table. -/
theorem C6_witness : simulate_disruption [⟨"S", "M", 3⟩] ["S"] 10 0
    = some ⟨[⟨"S", "M", 3⟩], true, false, none⟩ :=
  C6_empty_route_no_mutation [⟨"S", "M", 3⟩] ["S"] 10 0 (by decide)

/-- Claim C3: for a route of at least 2 nodes at least one of whose
consecutive edges appears in the edge table, `simulate_disruption` returns a
new snapshot in which the selected on-route edge's cost is exactly the
original cost times the factor with its endpoints unchanged, and every edge
row other than the selected one is unchanged; the result is `edges.set` of
the (pure, hence unmodified) input table, with no warnings raised. -/
theorem C3_disrupt_frame (edges : List EdgeRow) (path : List String) (factor : ℚ) (k : ℕ)
    (hlen : 2 ≤ path.length)
    (hmem : ∃ i, i < edges.length ∧
      ((edges.getD i default).source, (edges.getD i default).target) ∈ pathEdges path) :
    ∃ res j, simulate_disruption edges path factor k = some res ∧
      res.eventIndex = some j ∧ j < edges.length ∧
      ((edges.getD j default).source, (edges.getD j default).target) ∈ pathEdges path ∧
      res.edges = edges.set j
        { edges.getD j default with cost_eur := (edges.getD j default).cost_eur * factor } ∧
      (res.edges.getD j default).cost_eur = (edges.getD j default).cost_eur * factor ∧
      (res.edges.getD j default).source = (edges.getD j default).source ∧
      (res.edges.getD j default).target = (edges.getD j default).target ∧
      (∀ i, i ≠ j → res.edges.getD i default = edges.getD i default) ∧
      res.edges.length = edges.length ∧
      res.emptyPathWarning = false ∧ res.fallbackWarning = false := by
  have hpe : pathEdges path ≠ [] := by
    rcases path with _ | ⟨a, rest⟩
    · simp at hlen
    · rcases rest with _ | ⟨b, rest2⟩
      · simp at hlen
      · show (a :: b :: rest2).zip (b :: rest2) ≠ []
        simp [List.zip]
  have hon : onPathIndices edges (pathEdges path) ≠ [] := by
    rcases hmem with ⟨i, hi1, hi2⟩
    exact List.ne_nil_of_mem ((mem_onPathIndices edges (pathEdges path) i).mpr ⟨hi1, hi2⟩)
  set j := (onPathIndices edges (pathEdges path)).getD
    (k % (onPathIndices edges (pathEdges path)).length) 0 with hjdef
  have hjmem : j ∈ onPathIndices edges (pathEdges path) :=
    getD_mod_mem (onPathIndices edges (pathEdges path)) k hon
  have hjprops := (mem_onPathIndices edges (pathEdges path) j).mp hjmem
  refine ⟨_, j, simulate_disruption_on_path edges path factor k hpe hon, rfl,
    hjprops.1, hjprops.2, rfl, ?_, ?_, ?_, ?_, ?_, rfl, rfl⟩
  · show ((applyDisruption edges j factor).getD j default).cost_eur = _
    unfold applyDisruption
    rw [getD_set_self edges j _ hjprops.1]
  · show ((applyDisruption edges j factor).getD j default).source = _
    unfold applyDisruption
    rw [getD_set_self edges j _ hjprops.1]
  · show ((applyDisruption edges j factor).getD j default).target = _
    unfold applyDisruption
    rw [getD_set_self edges j _ hjprops.1]
  · intro i hij
    show (applyDisruption edges j factor).getD i default = _
    unfold applyDisruption
    rw [getD_set_ne edges i j _ hij]
  · show (applyDisruption edges j factor).length = _
    unfold applyDisruption
    rw [List.length_set]

/-- Witness for C3 on the spec's four-edge example, disrupting edge B→M. -/
theorem C3_witness : ∃ res j,
    simulate_disruption [⟨"S", "A", 5⟩, ⟨"A", "M", 5⟩, ⟨"S", "B", 3⟩, ⟨"B", "M", 3⟩]
      ["S", "B", "M"] 10 1 = some res ∧
    res.eventIndex = some j ∧
    j < ([⟨"S", "A", 5⟩, ⟨"A", "M", 5⟩, ⟨"S", "B", 3⟩, ⟨"B", "M", 3⟩] : List EdgeRow).length ∧
    (((([⟨"S", "A", 5⟩, ⟨"A", "M", 5⟩, ⟨"S", "B", 3⟩, ⟨"B", "M", 3⟩] : List EdgeRow).getD j
        default).source,
      (([⟨"S", "A", 5⟩, ⟨"A", "M", 5⟩, ⟨"S", "B", 3⟩, ⟨"B", "M", 3⟩] : List EdgeRow).getD j
        default).target) ∈ pathEdges ["S", "B", "M"]) ∧
    res.edges = ([⟨"S", "A", 5⟩, ⟨"A", "M", 5⟩, ⟨"S", "B", 3⟩, ⟨"B", "M", 3⟩] : List EdgeRow).set j
      { ([⟨"S", "A", 5⟩, ⟨"A", "M", 5⟩, ⟨"S", "B", 3⟩, ⟨"B", "M", 3⟩] : List EdgeRow).getD j
          default with
        cost_eur := (([⟨"S", "A", 5⟩, ⟨"A", "M", 5⟩, ⟨"S", "B", 3⟩,
          ⟨"B", "M", 3⟩] : List EdgeRow).getD j default).cost_eur * 10 } ∧
    (res.edges.getD j default).cost_eur
      = (([⟨"S", "A", 5⟩, ⟨"A", "M", 5⟩, ⟨"S", "B", 3⟩, ⟨"B", "M", 3⟩] : List EdgeRow).getD j
          default).cost_eur * 10 ∧
    (res.edges.getD j default).source
      = (([⟨"S", "A", 5⟩, ⟨"A", "M", 5⟩, ⟨"S", "B", 3⟩, ⟨"B", "M", 3⟩] : List EdgeRow).getD j
          default).source ∧
    (res.edges.getD j default).target
      = (([⟨"S", "A", 5⟩, ⟨"A", "M", 5⟩, ⟨"S", "B", 3⟩, ⟨"B", "M", 3⟩] : List EdgeRow).getD j
          default).target ∧
    (∀ i, i ≠ j → res.edges.getD i default
      = ([⟨"S", "A", 5⟩, ⟨"A", "M", 5⟩, ⟨"S", "B", 3⟩, ⟨"B", "M", 3⟩] : List EdgeRow).getD i
          default) ∧
    res.edges.length
      = ([⟨"S", "A", 5⟩, ⟨"A", "M", 5⟩, ⟨"S", "B", 3⟩, ⟨"B", "M", 3⟩] : List EdgeRow).length ∧
    res.emptyPathWarning = false ∧ res.fallbackWarning = false :=
  C3_disrupt_frame [⟨"S", "A", 5⟩, ⟨"A", "M", 5⟩, ⟨"S", "B", 3⟩, ⟨"B", "M", 3⟩]
    ["S", "B", "M"] 10 1 (by decide) ⟨3, by decide, by decide⟩

/-- Claim C2 (code bug): contrary to the spec, the reconstruction loop has no
hop-count guard and never fails with a MalformedFlow error; on a flow
assignment lacking a positive-flow outgoing arc at the current node (here the
all-zero flow on the one-edge graph S→U, reconstructing from S towards U) the
`while` loop simply never terminates: for every iteration bound it is still
running. -/
theorem C2_reconstruction_diverges :
    ∀ fuel, traceLoop ["S", "U"] [⟨0, 1, 1⟩] [false] "U" fuel 0 ["S"] = none := by
  intro fuel
  induction fuel with
  | zero => rfl
  | succ fuel ih =>
    have hstep : traceLoop ["S", "U"] [⟨0, 1, 1⟩] [false] "U" (fuel + 1) 0 ["S"]
        = traceLoop ["S", "U"] [⟨0, 1, 1⟩] [false] "U" fuel 0 ["S"] := by
      show (if (["S", "U"].getD 0 "" = "U") then some ["S"]
        else match findFlowArc [⟨0, 1, 1⟩] [false] 0 with
          | some i => traceLoop ["S", "U"] [⟨0, 1, 1⟩] [false] "U" fuel
              (arcHead [⟨0, 1, 1⟩] i)
              (["S"] ++ [["S", "U"].getD (arcHead [⟨0, 1, 1⟩] i) ""])
          | none => traceLoop ["S", "U"] [⟨0, 1, 1⟩] [false] "U" fuel 0 ["S"]) = _
      rw [if_neg (by decide),
        show findFlowArc [⟨0, 1, 1⟩] [false] 0 = none from by decide]
    rw [hstep]
    exact ih

/-- Claim C8: path reconstruction is deterministic — the reconstruction loop
is a pure function of the graph, flow, end marker and bound, so repeated
reconstruction is literally identical — and the tie-break among several
positive-flow outgoing arcs is the lowest arc index in input order: the inner
scan returns arc `i` exactly when `i` carries flow out of the current node
and no lower-indexed arc does. -/
theorem C8_deterministic_lowest_index :
    (∀ (node_ids : List String) (arcs : List Arc) (f : List Bool) (endId : String)
      (fuel cur : ℕ) (acc : List String),
      traceLoop node_ids arcs f endId fuel cur acc
        = traceLoop node_ids arcs f endId fuel cur acc)
    ∧ ∀ (arcs : List Arc) (f : List Bool) (cur i : ℕ),
        findFlowArc arcs f cur = some i ↔
          (i < arcs.length ∧ flowAt f i = true ∧ arcTail arcs i = cur ∧
            ∀ j < i, ¬ (flowAt f j = true ∧ arcTail arcs j = cur)) := by
  constructor
  · intro node_ids arcs f endId fuel cur acc
    rfl
  · intro arcs f cur i
    exact findFlowArc_some_iff arcs f cur i

/-- Claim C4: an edge referencing a node id absent from the node list makes
arc construction fail (an uncaught Python `KeyError`, modelled as `none`)
rather than being silently dropped, and in a call whose start and end ids
resolve, the whole call surfaces exactly the construction failure — the
solver is never consulted, for every fuel. -/
theorem C4_construction_error (node_ids : List String) (edges : List EdgeRow)
    (h : ∃ e ∈ edges, e.source ∉ node_ids ∨ e.target ∉ node_ids) :
    buildArcs (create_id_to_index_mapping node_ids) edges = none ∧
    ∀ (sId tId : String) (s t fuel : ℕ),
      create_id_to_index_mapping node_ids sId = some s →
      create_id_to_index_mapping node_ids tId = some t →
      find_optimal_path_ortools node_ids edges sId tId fuel
        = some SolveResult.keyError := by
  have hbn : buildArcs (create_id_to_index_mapping node_ids) edges = none := by
    rw [buildArcs_none_iff]
    rcases h with ⟨e, he, hor⟩
    refine ⟨e, he, ?_⟩
    rcases hor with h1 | h1
    · exact Or.inl ((create_id_none_iff node_ids e.source).mpr h1)
    · exact Or.inr ((create_id_none_iff node_ids e.target).mpr h1)
  refine ⟨hbn, ?_⟩
  intro sId tId s t fuel hs ht
  exact find_optimal_eq_keyError node_ids edges sId tId s t hs ht hbn fuel

/-- Witness for C4: an edge from the unknown node X with resolvable start and
end node S. -/
theorem C4_witness :
    buildArcs (create_id_to_index_mapping ["S"]) [⟨"X", "S", 1⟩] = none ∧
    find_optimal_path_ortools ["S"] [⟨"X", "S", 1⟩] "S" "S" 1
      = some SolveResult.keyError := by
  have h := C4_construction_error ["S"] [⟨"X", "S", 1⟩]
    ⟨⟨"X", "S", 1⟩, by decide, Or.inl (by decide)⟩
  exact ⟨h.1, h.2 "S" "S" 0 0 1 (by decide) (by decide)⟩

/-- Claim C9: the solver interprets `cost_eur` as an integer cost obtained by
truncation toward zero — replacing every cost by its truncated integer value
changes no solve result; truncation is toward zero on fractional values
(5/2 to 2, and minus 5/2 to -2); and fractional costs are not rejected: arc
construction succeeds whenever the edge endpoints resolve, whatever the
costs. -/
theorem C9_truncated_costs :
    (∀ (node_ids : List String) (edges : List EdgeRow) (sId tId : String) (fuel : ℕ),
      find_optimal_path_ortools node_ids (truncEdges edges) sId tId fuel
        = find_optimal_path_ortools node_ids edges sId tId fuel)
    ∧ intTrunc (5 / 2) = 2 ∧ intTrunc (-(5 / 2)) = -2
    ∧ ∀ (idx : String → Option ℕ) (edges : List EdgeRow),
        (∀ e ∈ edges, (idx e.source).isSome ∧ (idx e.target).isSome) →
        ∃ arcs, buildArcs idx edges = some arcs := by
  have h2 : intTrunc (5 / 2) = 2 := by norm_num [intTrunc]
  have h3 : intTrunc (-(5 / 2)) = -2 := by
    unfold intTrunc
    rw [if_neg (by norm_num), Int.ceil_neg]
    norm_num
  refine ⟨?_, h2, h3, ?_⟩
  · intro node_ids edges sId tId fuel
    unfold find_optimal_path_ortools
    simp only [buildArcs_truncEdges]
  · intro idx edges hres
    rcases hb : buildArcs idx edges with _ | arcs
    · exfalso
      rcases (buildArcs_none_iff idx edges).mp hb with ⟨e, he, hor⟩
      rcases hor with h1 | h1
      · have h2 := (hres e he).1
        rw [h1] at h2
        simp at h2
      · have h2 := (hres e he).2
        rw [h1] at h2
        simp at h2
    · exact ⟨arcs, rfl⟩

/-- Witness for C9: a fractional cost 5/2 is truncated, not rejected, and
solving on the truncated table agrees with solving on the original. -/
theorem C9_witness :
    find_optimal_path_ortools ["S", "M"] (truncEdges [⟨"S", "M", 5 / 2⟩]) "S" "M" 2
      = find_optimal_path_ortools ["S", "M"] [⟨"S", "M", 5 / 2⟩] "S" "M" 2
    ∧ ∃ arcs, buildArcs (create_id_to_index_mapping ["S", "M"]) [⟨"S", "M", 5 / 2⟩]
        = some arcs :=
  ⟨C9_truncated_costs.1 ["S", "M"] [⟨"S", "M", 5 / 2⟩] "S" "M" 2,
    C9_truncated_costs.2.2.2 (create_id_to_index_mapping ["S", "M"]) [⟨"S", "M", 5 / 2⟩]
      (by decide)⟩

/-- Claim C10: when the start and end ids resolve to the same node, the
sink's supply assignment of -1 overwrites the source's +1 (total supply -1),
the flow problem is infeasible, and solve returns the `(None, None)` outcome
rather than a single-node route with cost 0 — for every fuel. -/
theorem C10_same_source_sink (node_ids : List String) (edges : List EdgeRow)
    (theId : String) (s : ℕ) (arcs : List Arc)
    (hs : create_id_to_index_mapping node_ids theId = some s)
    (hb : buildArcs (create_id_to_index_mapping node_ids) edges = some arcs) :
    ∀ fuel, find_optimal_path_ortools node_ids edges theId theId fuel
      = some SolveResult.notFound := by
  have hA := buildArcs_endpoints_lt node_ids edges arcs hb
  have hsn : s < node_ids.length := create_id_lt _ _ _ hs
  have hnone : solveFlow node_ids.length s s arcs = none := by
    rcases hr : solveFlow node_ids.length s s arcs with _ | f
    · rfl
    · exact absurd (solveFlow_feasible _ s s arcs f hr)
        (not_feasible_same node_ids.length s arcs f hA hsn)
  exact find_optimal_eq_notFound node_ids edges theId theId s s arcs hs hs hb hnone

/-- Witness for C10: the two-node, one-edge graph with start = end = S. -/
theorem C10_witness : find_optimal_path_ortools ["S", "M"] [⟨"S", "M", 3⟩] "S" "S" 2
    = some SolveResult.notFound :=
  C10_same_source_sink ["S", "M"] [⟨"S", "M", 3⟩] "S" 0 [⟨0, 1, 3⟩] (by decide)
    (by decide) 2

/-- Claim C5: when the source and sink ids both resolve but no path connects
source to sink, solve returns the `(None, None)` outcome for every fuel, and
in particular never returns a route — not even an empty route with cost 0. -/
theorem C5_path_not_found (node_ids : List String) (edges : List EdgeRow)
    (sId tId : String) (s t : ℕ) (arcs : List Arc)
    (hs : create_id_to_index_mapping node_ids sId = some s)
    (ht : create_id_to_index_mapping node_ids tId = some t)
    (hb : buildArcs (create_id_to_index_mapping node_ids) edges = some arcs)
    (hnowalk : ¬ ∃ w, IsWalk arcs s t w) :
    ∀ fuel, find_optimal_path_ortools node_ids edges sId tId fuel
        = some SolveResult.notFound
      ∧ ∀ (p : List String) (c : ℤ), find_optimal_path_ortools node_ids edges sId tId fuel
        ≠ some (SolveResult.found p c) := by
  have hA := buildArcs_endpoints_lt node_ids edges arcs hb
  have hsn : s < node_ids.length := create_id_lt _ _ _ hs
  have hst : s ≠ t := by
    intro hc
    exact hnowalk ⟨[], by rw [isWalk_nil_iff]; omega⟩
  have hnone : solveFlow node_ids.length s t arcs = none := by
    rcases hr : solveFlow node_ids.length s t arcs with _ | f
    · rfl
    · exfalso
      have hfeas := solveFlow_feasible _ s t arcs f hr
      rcases walk_of_feasible node_ids.length t arcs hA (f.count true) f s (le_refl _)
        hsn hst hfeas with ⟨w, hw, _, _⟩
      exact hnowalk ⟨w, hw⟩
  intro fuel
  have h1 := find_optimal_eq_notFound node_ids edges sId tId s t arcs hs ht hb hnone fuel
  refine ⟨h1, ?_⟩
  intro p c hc
  rw [h1] at hc
  simp at hc

/-- Witness for C5: two isolated nodes S and U with no edges at all. -/
theorem C5_witness :
    find_optimal_path_ortools ["S", "U"] [] "S" "U" 3 = some SolveResult.notFound
    ∧ ∀ (p : List String) (c : ℤ), find_optimal_path_ortools ["S", "U"] [] "S" "U" 3
      ≠ some (SolveResult.found p c) := by
  have hnw : ¬ ∃ w, IsWalk ([] : List Arc) 0 1 w := by
    rintro ⟨w, hw⟩
    rcases w with _ | ⟨j, w2⟩
    · rw [isWalk_nil_iff] at hw
      omega
    · rw [isWalk_cons_iff] at hw
      simp at hw
  exact C5_path_not_found ["S", "U"] [] "S" "U" 0 1 [] (by decide) (by decide)
    (by decide) hnw 3

theorem buildArcs_cons_some (idx : String → Option ℕ) (e : EdgeRow) (es : List EdgeRow)
    (u v : ℕ) (hu : idx e.source = some u) (hv : idx e.target = some v) :
    buildArcs idx (e :: es)
      = (buildArcs idx es).map (fun rest => ⟨u, v, intTrunc e.cost_eur⟩ :: rest) := by
  show (match idx e.source, idx e.target with
    | some u, some v => (buildArcs idx es).map
        (fun rest => (⟨u, v, intTrunc e.cost_eur⟩ : Arc) :: rest)
    | _, _ => none) = _
  rw [hu, hv]

/-- Claim C1 counterexample: the claim as stated fails on the code. Part one:
with a single node S and source = sink = S, source and sink are connected by
the empty path, yet solve returns no route at all (the `(None, None)`
outcome). Part two: with nodes S, T, A, B, the edge S→T of cost 3 and a
negative-cost cycle A→B, B→A of cost -5 each, the minimum-cost flow saturates
the cycle, so solve returns the route [S, T] with reported total cost -7,
while every source-to-sink path in the graph consists of exactly the arc S→T
and has edge-cost sum 3 — the reported total does not equal the sum of the
route's consecutive edge costs. -/
theorem C1_counterexample :
    ((∃ w, IsWalk ([] : List Arc) 0 0 w)
      ∧ ∀ (p : List String) (c : ℤ),
          find_optimal_path_ortools ["S"] [] "S" "S" 1 ≠ some (SolveResult.found p c))
    ∧ buildArcs (create_id_to_index_mapping ["S", "T", "A", "B"])
        [⟨"S", "T", 3⟩, ⟨"A", "B", -5⟩, ⟨"B", "A", -5⟩]
        = some [⟨0, 1, 3⟩, ⟨2, 3, -5⟩, ⟨3, 2, -5⟩]
    ∧ find_optimal_path_ortools ["S", "T", "A", "B"]
        [⟨"S", "T", 3⟩, ⟨"A", "B", -5⟩, ⟨"B", "A", -5⟩] "S" "T" 5
        = some (SolveResult.found ["S", "T"] (-7))
    ∧ ∀ w, IsWalk [⟨0, 1, 3⟩, ⟨2, 3, -5⟩, ⟨3, 2, -5⟩] 0 1 w →
        costSum [⟨0, 1, 3⟩, ⟨2, 3, -5⟩, ⟨3, 2, -5⟩] w = 3 := by
  refine ⟨⟨⟨[], by rw [isWalk_nil_iff]⟩, ?_⟩, by decide, by decide, ?_⟩
  · intro p c hc
    have hnf : find_optimal_path_ortools ["S"] [] "S" "S" 1
        = some SolveResult.notFound := by decide
    rw [hnf] at hc
    simp at hc
  · intro w hw
    rcases w with _ | ⟨j, w2⟩
    · rw [isWalk_nil_iff] at hw
      omega
    · rw [isWalk_cons_iff] at hw
      rcases hw with ⟨hj, htl, hrest⟩
      have hj3 : j < 3 := by simpa using hj
      have hj0 : j = 0 := by
        interval_cases j
        · rfl
        · exact absurd htl (by decide)
        · exact absurd htl (by decide)
      subst hj0
      have hh : arcHead [⟨0, 1, 3⟩, ⟨2, 3, -5⟩, ⟨3, 2, -5⟩] 0 = 1 := by decide
      rw [hh] at hrest
      rcases w2 with _ | ⟨j2, w3⟩
      · decide
      · exfalso
        rw [isWalk_cons_iff] at hrest
        rcases hrest with ⟨hj2, htl2, _⟩
        have hj23 : j2 < 3 := by simpa using hj2
        interval_cases j2
        · exact absurd htl2 (by decide)
        · exact absurd htl2 (by decide)
        · exact absurd htl2 (by decide)

/-- Claim C1 amended: for every graph with unique node ids whose truncated
edge costs are all nonnegative, and distinct resolvable source and sink
connected by at least one path, solve returns a route realized by a walk
from source to sink whose reported total cost equals exactly the sum of its
consecutive edges' (truncated) costs, and no source-to-sink path in the
graph has a strictly smaller cost sum. -/
theorem C1_amended (node_ids : List String) (edges : List EdgeRow)
    (sId tId : String) (s t : ℕ) (arcs : List Arc)
    (hids : node_ids.Nodup)
    (hs : create_id_to_index_mapping node_ids sId = some s)
    (ht : create_id_to_index_mapping node_ids tId = some t)
    (hst : s ≠ t)
    (hb : buildArcs (create_id_to_index_mapping node_ids) edges = some arcs)
    (hnn : ∀ e ∈ edges, 0 ≤ intTrunc e.cost_eur)
    (hconn : ∃ w0, IsWalk arcs s t w0) :
    ∀ fuel, node_ids.length ≤ fuel →
      ∃ (p : List String) (c : ℤ) (w : List ℕ),
        find_optimal_path_ortools node_ids edges sId tId fuel
          = some (SolveResult.found p c)
        ∧ IsWalk arcs s t w
        ∧ p = (nodeSeq arcs s w).map (fun v => node_ids.getD v "")
        ∧ c = costSum arcs w
        ∧ ∀ w2, IsWalk arcs s t w2 → c ≤ costSum arcs w2 := by
  have hnnA : ∀ a ∈ arcs, 0 ≤ a.cost := by
    intro a ha
    rcases buildArcs_mem _ edges arcs hb a ha with ⟨e, he, _, _, hc⟩
    rw [hc]
    exact hnn e he
  rcases find_optimal_spec node_ids edges sId tId s t arcs hids hs ht hst hb hnnA hconn with
    ⟨f, w, hsolve, _, _, hw, _, _, hcost, hout⟩
  intro fuel hfuel
  exact ⟨_, _, w, hout fuel hfuel, hw, rfl, hcost,
    flowCost_le_walk node_ids.length s t arcs f hnnA hsolve hst⟩

/-- Witness for C1 (amended) on the spec's four-node example graph, where the
optimal route is S→B→M at cost 6. -/
theorem C1_witness :
    ∃ (p : List String) (c : ℤ) (w : List ℕ),
      find_optimal_path_ortools ["S", "A", "B", "M"]
        [⟨"S", "A", 5⟩, ⟨"A", "M", 5⟩, ⟨"S", "B", 3⟩, ⟨"B", "M", 3⟩] "S" "M" 4
        = some (SolveResult.found p c)
      ∧ IsWalk [⟨0, 1, 5⟩, ⟨1, 3, 5⟩, ⟨0, 2, 3⟩, ⟨2, 3, 3⟩] 0 3 w
      ∧ p = (nodeSeq [⟨0, 1, 5⟩, ⟨1, 3, 5⟩, ⟨0, 2, 3⟩, ⟨2, 3, 3⟩] 0 w).map
          (fun v => ["S", "A", "B", "M"].getD v "")
      ∧ c = costSum [⟨0, 1, 5⟩, ⟨1, 3, 5⟩, ⟨0, 2, 3⟩, ⟨2, 3, 3⟩] w
      ∧ ∀ w2, IsWalk [⟨0, 1, 5⟩, ⟨1, 3, 5⟩, ⟨0, 2, 3⟩, ⟨2, 3, 3⟩] 0 3 w2 →
          c ≤ costSum [⟨0, 1, 5⟩, ⟨1, 3, 5⟩, ⟨0, 2, 3⟩, ⟨2, 3, 3⟩] w2 :=
  C1_amended ["S", "A", "B", "M"]
    [⟨"S", "A", 5⟩, ⟨"A", "M", 5⟩, ⟨"S", "B", 3⟩, ⟨"B", "M", 3⟩] "S" "M" 0 3
    [⟨0, 1, 5⟩, ⟨1, 3, 5⟩, ⟨0, 2, 3⟩, ⟨2, 3, 3⟩] (by decide) (by decide) (by decide)
    (by decide) (by decide) (by decide) ⟨[2, 3], by decide⟩ 4 (by decide)

theorem getD_mem {α : Type} [Inhabited α] (l : List α) (j : ℕ) (hj : j < l.length) :
    l.getD j default ∈ l := by
  rw [List.getD_eq_getElem l default hj]
  exact List.getElem_mem hj

theorem keyLE_le (arcs : List Arc) (f g : List Bool) (h : keyLE arcs f g) :
    flowCost arcs f ≤ flowCost arcs g := by
  unfold keyLE at h
  rcases h with h | h
  · omega
  · omega

theorem buildArcs_getD (idx : String → Option ℕ) : ∀ (edges : List EdgeRow)
    (arcs : List Arc) (j : ℕ), buildArcs idx edges = some arcs → j < edges.length →
    ∃ u v, arcs.getD j default = ⟨u, v, intTrunc (edges.getD j default).cost_eur⟩ := by
  intro edges
  induction edges with
  | nil =>
    intro arcs j _ hj
    simp at hj
  | cons e es ih =>
    intro arcs j hb hj
    unfold buildArcs at hb
    rcases hsrc : idx e.source with _ | u <;> rw [hsrc] at hb
    · simp at hb
    · rcases htgt : idx e.target with _ | v <;> rw [htgt] at hb
      · simp at hb
      · rcases hrec : buildArcs idx es with _ | rest <;> rw [hrec] at hb
        · simp at hb
        · simp only [Option.map_some'] at hb
          have harcs : arcs = ⟨u, v, intTrunc e.cost_eur⟩ :: rest :=
            (Option.some.inj hb).symm
          subst harcs
          rcases j with _ | j
          · exact ⟨u, v, rfl⟩
          · exact ih rest j hrec (by simpa using hj)

theorem find_optimal_found_inv (node_ids : List String) (edges : List EdgeRow)
    (sId tId : String) (s t : ℕ) (arcs : List Arc) (fuel : ℕ) (p : List String) (c : ℤ)
    (hs : create_id_to_index_mapping node_ids sId = some s)
    (ht : create_id_to_index_mapping node_ids tId = some t)
    (hb : buildArcs (create_id_to_index_mapping node_ids) edges = some arcs)
    (h : find_optimal_path_ortools node_ids edges sId tId fuel
      = some (SolveResult.found p c)) :
    ∃ f, solveFlow node_ids.length s t arcs = some f ∧ c = flowCost arcs f := by
  unfold find_optimal_path_ortools at h
  rw [hs, ht, hb] at h
  rcases hsf : solveFlow node_ids.length s t arcs with _ | f <;>
    simp only [hsf] at h
  · exact absurd h (by simp)
  · rw [Option.map_eq_some'] at h
    rcases h with ⟨path, _, hinj⟩
    refine ⟨f, rfl, ?_⟩
    have := (SolveResult.found.injEq path (flowCost arcs f) p c).mp hinj
    omega

/-- Claim C7 amended: for a graph with unique node ids and positive edge
costs, resolvable source and sink, an already computed optimal route, factor
at least 1, and a disruption that selects an edge lying on that route,
re-solving on the disrupted table yields a route whose cost `c2` satisfies
`c1 ≤ c2`; and `c2 = c1` implies the factor is 1, or the disrupted edge's
truncated integer cost is unchanged by the disruption, or an equally cheap
alternate path exists that avoids the disrupted edge entirely. -/
theorem C7_amended (node_ids : List String) (edges : List EdgeRow)
    (sId tId : String) (s t : ℕ) (arcs : List Arc) (p1 : List String) (c1 : ℤ)
    (factor : ℚ) (k : ℕ) (res : DisruptResult) (j : ℕ)
    (hids : node_ids.Nodup)
    (hs : create_id_to_index_mapping node_ids sId = some s)
    (ht : create_id_to_index_mapping node_ids tId = some t)
    (hb : buildArcs (create_id_to_index_mapping node_ids) edges = some arcs)
    (hpos : ∀ e ∈ edges, 0 < e.cost_eur)
    (hfac : 1 ≤ factor)
    (h1 : find_optimal_path_ortools node_ids edges sId tId node_ids.length
      = some (SolveResult.found p1 c1))
    (hon : ∃ i, i < edges.length ∧
      ((edges.getD i default).source, (edges.getD i default).target) ∈ pathEdges p1)
    (hd : simulate_disruption edges p1 factor k = some res)
    (hj : res.eventIndex = some j) :
    ∃ (p2 : List String) (c2 : ℤ),
      find_optimal_path_ortools node_ids res.edges sId tId node_ids.length
        = some (SolveResult.found p2 c2)
      ∧ c1 ≤ c2
      ∧ (c2 = c1 → factor = 1
          ∨ intTrunc ((edges.getD j default).cost_eur * factor)
              = intTrunc (edges.getD j default).cost_eur
          ∨ ∃ w, IsWalk arcs s t w ∧ j ∉ w ∧ costSum arcs w = c1) := by
  have hnnA : ∀ a ∈ arcs, 0 ≤ a.cost := by
    intro a ha
    rcases buildArcs_mem _ edges arcs hb a ha with ⟨e, he, _, _, hc⟩
    rw [hc]
    exact intTrunc_nonneg _ (le_of_lt (hpos e he))
  have hA := buildArcs_endpoints_lt node_ids edges arcs hb
  have hsn : s < node_ids.length := create_id_lt _ _ _ hs
  have hst : s ≠ t := by
    intro hc
    subst hc
    have hnone : solveFlow node_ids.length s s arcs = none := by
      rcases hr : solveFlow node_ids.length s s arcs with _ | f0
      · rfl
      · exact absurd (solveFlow_feasible _ s s arcs f0 hr)
          (not_feasible_same node_ids.length s arcs f0 hA hsn)
    have h2 := find_optimal_eq_notFound node_ids edges sId tId s s arcs hs ht hb hnone
      node_ids.length
    rw [h2] at h1
    simp at h1
  rcases find_optimal_found_inv node_ids edges sId tId s t arcs node_ids.length p1 c1
    hs ht hb h1 with ⟨f1, hsf1, hc1⟩
  have hfeas1 := solveFlow_feasible _ s t arcs f1 hsf1
  have hmin1 := solveFlow_min _ s t arcs f1 hsf1
  have hconn : ∃ w0, IsWalk arcs s t w0 := by
    rcases walk_of_feasible node_ids.length t arcs hA (f1.count true) f1 s (le_refl _)
      hsn hst hfeas1 with ⟨w0, hw0, _, _⟩
    exact ⟨w0, hw0⟩
  have hpe : pathEdges p1 ≠ [] := by
    rcases hon with ⟨i, _, hi2⟩
    intro hc
    rw [hc] at hi2
    simp at hi2
  have honl : onPathIndices edges (pathEdges p1) ≠ [] := by
    rcases hon with ⟨i, hi1, hi2⟩
    exact List.ne_nil_of_mem ((mem_onPathIndices edges (pathEdges p1) i).mpr ⟨hi1, hi2⟩)
  have hsim := simulate_disruption_on_path edges p1 factor k hpe honl
  rw [hd] at hsim
  have hres := Option.some.inj hsim
  have hjeq : (onPathIndices edges (pathEdges p1)).getD
      (k % (onPathIndices edges (pathEdges p1)).length) 0 = j := by
    rw [hres] at hj
    exact Option.some.inj hj
  have hjm := getD_mod_mem (onPathIndices edges (pathEdges p1)) k honl
  rw [hjeq] at hres hjm
  have hjprops := (mem_onPathIndices edges (pathEdges p1) j).mp hjm
  have hjlen : j < edges.length := hjprops.1
  have hjlenA : j < arcs.length := by
    rw [buildArcs_length _ edges arcs hb]
    exact hjlen
  have hredges : res.edges = edges.set j
      { edges.getD j default with
        cost_eur := (edges.getD j default).cost_eur * factor } := by
    rw [hres]
    rfl
  have hb2 : buildArcs (create_id_to_index_mapping node_ids) res.edges
      = some (arcs.set j { arcs.getD j default with
          cost := intTrunc ((edges.getD j default).cost_eur * factor) }) := by
    rw [hredges]
    exact buildArcs_set _ edges arcs j _ hb hjlen
  rcases buildArcs_getD _ edges arcs j hb hjlen with ⟨u, v, hgd⟩
  have harcc : arcCost arcs j = intTrunc (edges.getD j default).cost_eur := by
    unfold arcCost
    rw [hgd]
  have hcpos : 0 < (edges.getD j default).cost_eur := hpos _ (getD_mem edges j hjlen)
  have hcle : (edges.getD j default).cost_eur
      ≤ (edges.getD j default).cost_eur * factor :=
    le_mul_of_one_le_right (le_of_lt hcpos) hfac
  have hdelta : arcCost arcs j ≤ intTrunc ((edges.getD j default).cost_eur * factor) := by
    rw [harcc]
    exact intTrunc_mono _ _ hcle
  have hnnA2 : ∀ a ∈ arcs.set j { arcs.getD j default with
      cost := intTrunc ((edges.getD j default).cost_eur * factor) }, 0 ≤ a.cost := by
    intro a ha
    rcases List.mem_or_eq_of_mem_set ha with h2 | h2
    · exact hnnA a h2
    · rw [h2]
      exact intTrunc_nonneg _ (le_trans (le_of_lt hcpos) hcle)
  have hconn2 : ∃ w0, IsWalk (arcs.set j { arcs.getD j default with
      cost := intTrunc ((edges.getD j default).cost_eur * factor) }) s t w0 := by
    rcases hconn with ⟨w0, hw0⟩
    exact ⟨w0, (isWalk_set_cost arcs j _ hjlenA w0 s t).mpr hw0⟩
  rcases find_optimal_spec node_ids res.edges sId tId s t
    (arcs.set j { arcs.getD j default with
      cost := intTrunc ((edges.getD j default).cost_eur * factor) })
    hids hs ht hst hb2 hnnA2 hconn2 with
    ⟨f2, w2, hsolve2, hfeas2, hmin2, hw2, hns2, hsup2, hcost2, hout2⟩
  have hfeas2old : Feasible node_ids.length s t arcs f2 :=
    (feasible_set_cost node_ids.length s t arcs j _ f2 hjlenA).mp hfeas2
  have hcostrel : flowCost (arcs.set j { arcs.getD j default with
      cost := intTrunc ((edges.getD j default).cost_eur * factor) }) f2
      = flowCost arcs f2
        + (if flowAt f2 j = true
            then intTrunc ((edges.getD j default).cost_eur * factor) - arcCost arcs j
            else 0) :=
    flowCost_set_cost arcs j _ f2 hjlenA
  have hle1 : flowCost arcs f1 ≤ flowCost arcs f2 :=
    keyLE_le arcs f1 f2 (hmin1 f2 hfeas2old)
  have hle2 : flowCost arcs f2 ≤ flowCost (arcs.set j { arcs.getD j default with
      cost := intTrunc ((edges.getD j default).cost_eur * factor) }) f2 := by
    rw [hcostrel]
    by_cases h2 : flowAt f2 j = true
    · rw [if_pos h2]
      omega
    · rw [if_neg h2]
      omega
  refine ⟨_, _, hout2 node_ids.length (le_refl _), ?_, ?_⟩
  · rw [hc1]
    exact le_trans hle1 hle2
  · intro heq
    by_cases h2 : flowAt f2 j = true
    · refine Or.inr (Or.inl ?_)
      rw [if_pos h2] at hcostrel
      rw [← harcc]
      have hge : c1 ≤ flowCost arcs f2 := by
        rw [hc1]
        exact hle1
      omega
    · refine Or.inr (Or.inr ?_)
      refine ⟨w2, ?_, ?_, ?_⟩
      · exact (isWalk_set_cost arcs j _ hjlenA w2 s t).mp hw2
      · intro hmem
        exact h2 ((hsup2 j).mpr hmem)
      · have hnm : j ∉ w2 := fun hmem => h2 ((hsup2 j).mpr hmem)
        have := costSum_set_cost_of_not_mem arcs j
          (intTrunc ((edges.getD j default).cost_eur * factor)) w2 hnm
        rw [if_neg h2] at hcostrel
        omega

/-- Claim C7 counterexample: on the one-edge graph S→M with positive cost 2,
disrupting the (on-route) edge with factor 5/4 ≥ 1 multiplies its cost to
5/2, whose truncated integer value is still 2; re-solving returns the same
optimal cost 2, so equality holds although the factor is not 1 and no
alternate source-to-sink path avoiding the disrupted edge exists (every walk
from S to M uses arc 0). -/
theorem C7_counterexample :
    find_optimal_path_ortools ["S", "M"] [⟨"S", "M", 2⟩] "S" "M" 2
      = some (SolveResult.found ["S", "M"] 2)
    ∧ simulate_disruption [⟨"S", "M", 2⟩] ["S", "M"] (5 / 4) 0
        = some ⟨[⟨"S", "M", (2 : ℚ) * (5 / 4)⟩], false, false, some 0⟩
    ∧ find_optimal_path_ortools ["S", "M"] [⟨"S", "M", (2 : ℚ) * (5 / 4)⟩] "S" "M" 2
        = some (SolveResult.found ["S", "M"] 2)
    ∧ (5 / 4 : ℚ) ≠ 1
    ∧ ∀ w, IsWalk [⟨0, 1, 2⟩] 0 1 w → 0 ∈ w := by
  refine ⟨by decide, ?_, ?_, by norm_num, ?_⟩
  · have hsim := simulate_disruption_on_path [⟨"S", "M", 2⟩] ["S", "M"] (5 / 4) 0
      (by decide) (by decide)
    have hidx : (onPathIndices [⟨"S", "M", 2⟩] (pathEdges ["S", "M"])).getD
        (0 % (onPathIndices [⟨"S", "M", 2⟩] (pathEdges ["S", "M"])).length) 0 = 0 := by
      decide
    rw [hidx] at hsim
    rw [hsim]
    rfl
  · have htr : intTrunc ((2 : ℚ) * (5 / 4)) = 2 := by norm_num [intTrunc]
    have hcid1 : create_id_to_index_mapping ["S", "M"] "S" = some 0 := by decide
    have hcid2 : create_id_to_index_mapping ["S", "M"] "M" = some 1 := by decide
    have hbuild : buildArcs (create_id_to_index_mapping ["S", "M"])
        [⟨"S", "M", (2 : ℚ) * (5 / 4)⟩] = some [⟨0, 1, 2⟩] := by
      rw [buildArcs_cons_some (create_id_to_index_mapping ["S", "M"])
        ⟨"S", "M", (2 : ℚ) * (5 / 4)⟩ [] 0 1 hcid1 hcid2]
      have hnil : buildArcs (create_id_to_index_mapping ["S", "M"]) [] = some [] := rfl
      rw [hnil, Option.map_some']
      have hproj : (⟨"S", "M", (2 : ℚ) * (5 / 4)⟩ : EdgeRow).cost_eur
          = (2 : ℚ) * (5 / 4) := rfl
      rw [hproj, htr]
    unfold find_optimal_path_ortools
    rw [hcid1, hcid2]
    simp only [hbuild,
      show solveFlow 2 0 1 [⟨0, 1, 2⟩] = some [true] from by decide,
      show traceLoop ["S", "M"] [⟨0, 1, 2⟩] [true] "M" 2 0 ["S"] = some ["S", "M"]
        from by decide, Option.map_some']
    decide
  · intro w hw
    rcases w with _ | ⟨j, w2⟩
    · rw [isWalk_nil_iff] at hw
      omega
    · rw [isWalk_cons_iff] at hw
      have hj : j = 0 := by
        have h0 := hw.1
        simp at h0
        omega
      subst hj
      exact List.mem_cons_self 0 w2

/-- Witness for C7 (amended) on the spec's four-node example: disrupting the
on-route edge B→M with factor 10 and re-solving yields cost 10 ≥ 6. -/
theorem C7_witness :
    ∃ (p2 : List String) (c2 : ℤ),
      find_optimal_path_ortools ["S", "A", "B", "M"]
        [⟨"S", "A", 5⟩, ⟨"A", "M", 5⟩, ⟨"S", "B", 3⟩, ⟨"B", "M", (3 : ℚ) * 10⟩]
        "S" "M" (["S", "A", "B", "M"] : List String).length
        = some (SolveResult.found p2 c2)
      ∧ 6 ≤ c2
      ∧ (c2 = 6 → (10 : ℚ) = 1
          ∨ intTrunc ((([⟨"S", "A", 5⟩, ⟨"A", "M", 5⟩, ⟨"S", "B", 3⟩,
                ⟨"B", "M", 3⟩] : List EdgeRow).getD 3 default).cost_eur * 10)
              = intTrunc (([⟨"S", "A", 5⟩, ⟨"A", "M", 5⟩, ⟨"S", "B", 3⟩,
                ⟨"B", "M", 3⟩] : List EdgeRow).getD 3 default).cost_eur
          ∨ ∃ w, IsWalk [⟨0, 1, 5⟩, ⟨1, 3, 5⟩, ⟨0, 2, 3⟩, ⟨2, 3, 3⟩] 0 3 w ∧ 3 ∉ w
              ∧ costSum [⟨0, 1, 5⟩, ⟨1, 3, 5⟩, ⟨0, 2, 3⟩, ⟨2, 3, 3⟩] w = 6) := by
  have hidx : (onPathIndices [⟨"S", "A", 5⟩, ⟨"A", "M", 5⟩, ⟨"S", "B", 3⟩, ⟨"B", "M", 3⟩]
      (pathEdges ["S", "B", "M"])).getD
      (1 % (onPathIndices [⟨"S", "A", 5⟩, ⟨"A", "M", 5⟩, ⟨"S", "B", 3⟩, ⟨"B", "M", 3⟩]
        (pathEdges ["S", "B", "M"])).length) 0 = 3 := by decide
  have hd : simulate_disruption
      [⟨"S", "A", 5⟩, ⟨"A", "M", 5⟩, ⟨"S", "B", 3⟩, ⟨"B", "M", 3⟩] ["S", "B", "M"] 10 1
      = some ⟨[⟨"S", "A", 5⟩, ⟨"A", "M", 5⟩, ⟨"S", "B", 3⟩, ⟨"B", "M", (3 : ℚ) * 10⟩],
          false, false, some 3⟩ := by
    have hsim := simulate_disruption_on_path
      [⟨"S", "A", 5⟩, ⟨"A", "M", 5⟩, ⟨"S", "B", 3⟩, ⟨"B", "M", 3⟩] ["S", "B", "M"] 10 1
      (by decide) (by decide)
    rw [hidx] at hsim
    rw [hsim]
    rfl
  exact C7_amended ["S", "A", "B", "M"]
    [⟨"S", "A", 5⟩, ⟨"A", "M", 5⟩, ⟨"S", "B", 3⟩, ⟨"B", "M", 3⟩] "S" "M" 0 3
    [⟨0, 1, 5⟩, ⟨1, 3, 5⟩, ⟨0, 2, 3⟩, ⟨2, 3, 3⟩] ["S", "B", "M"] 6 10 1
    ⟨[⟨"S", "A", 5⟩, ⟨"A", "M", 5⟩, ⟨"S", "B", 3⟩, ⟨"B", "M", (3 : ℚ) * 10⟩],
      false, false, some 3⟩ 3
    (by decide) (by decide) (by decide) (by decide) (by decide) (by decide)
    (by decide) ⟨3, by decide, by decide⟩ hd rfl
